import Mathlib

/-!
# Verification of the routio TSP solver core

A shallow embedding, in Lean 4, of the genetic-algorithm TSP solver of the
routio repository (`src/core/algorithms/ga/constants.ts`) and of its
cost-table construction pipeline (`src/services/brokerServices.ts`),
together with theorems settling the specification's claims about them.

Conventions of the embedding:
* JavaScript numbers used as costs and fitness values are modelled as `ℚ`;
  node indices and loci are `ℕ` (and `ℤ` where the code uses the sentinel
  `-1` inside chromosome arrays during crossover).
* A `Chromosome` is carried as the ordered list of its genes.  The source
  stores tours in insertion-ordered `Set`s keyed by a serialised string;
  both preserve insertion order and compare by the full ordered sequence,
  so a `List ℕ` with decidable equality is a faithful model.
* JavaScript truthiness tests on numbers (`!x`, `x && …`) are translated
  literally: `0` is falsy.  These show up in `_evaluateChromosomeFitness`
  (`firstGene && lastGene`) and in the nearest-neighbour scan
  (`!nearestNeighborCost`).
* The source sorts `[chromosome, fitness]` pairs with a custom in-place
  median-of-three quicksort whose only contract (used and documented in
  the repository) is "ascending by fitness"; it is modelled by
  `List.insertionSort` with the fitness-ascending comparator.  All
  concrete inputs used in the theorems below have pairwise-distinct
  fitness values, on which every ascending sort agrees.
* Randomness: every random draw (`random(min, max)` inclusive) is made an
  explicit argument, with the draw's range recorded as a hypothesis.
-/

namespace Routio

/-- A route entry of a cost table: `[originIndex, destIndex, cost]`,
as produced by `calculateCostTable` (`src/services/brokerServices.ts`). -/
abbrev Route : Type := ℕ × ℕ × ℚ

/-- `CostTable` — `src/types`: a list of `[origin, dest, cost]` triples,
row-major for the solver's index arithmetic. -/
abbrev CostTable : Type := List Route

/-- A chromosome (tour) carried as the ordered list of its genes. -/
abbrev Chromosome : Type := List ℕ

/-- `GA._getRouteCost` — `src/core/algorithms/ga/constants.ts`:
`costTable[originIndex * dimension + destIndex][2]`. -/
def getRouteCost (costTable : CostTable) (dimension originIndex destIndex : ℕ) : ℚ :=
  (costTable.getD (originIndex * dimension + destIndex) (0, 0, 0)).2.2

/-- The loop state of `GA._evaluateChromosomeFitness`:
`(cost, lastGene, firstGene)`. -/
abbrev FitnessLoopState : Type := ℚ × Option ℕ × Option ℕ

/-- One iteration of the `for (let gene of chromosome)` loop of
`GA._evaluateChromosomeFitness`: on the first gene record `firstGene`,
afterwards accumulate `costTable[lastGene, gene]`. -/
def fitnessStep (costTable : CostTable) (dimension : ℕ)
    (s : FitnessLoopState) (gene : ℕ) : FitnessLoopState :=
  match s with
  | (cost, none, _) => (cost, some gene, some gene)
  | (cost, some lastGene, firstGene) =>
      (cost + getRouteCost costTable dimension lastGene gene, some gene, firstGene)

/-- `GA._evaluateChromosomeFitness` — `src/core/algorithms/ga/constants.ts`.
The closing edge is added under the literal JavaScript condition
`this._returnToOrigin && firstGene && lastGene`: both genes must be
non-null AND non-zero (`0` is falsy in JavaScript), which is why a tour
that starts or ends at node `0` never receives its closing edge. -/
def evaluateChromosomeFitness (costTable : CostTable) (dimension : ℕ)
    (returnToOrigin : Bool) (chromosome : Chromosome) : ℚ :=
  let s := chromosome.foldl (fitnessStep costTable dimension) (0, none, none)
  let cost :=
    match s with
    | (cost, some lastGene, some firstGene) =>
        if returnToOrigin ∧ firstGene ≠ 0 ∧ lastGene ≠ 0 then
          cost + getRouteCost costTable dimension lastGene firstGene
        else cost
    | (cost, _, _) => cost
  1 / cost

/-- The path cost `Σ costTable[c_k, c_{k+1}]` over `k = 0..N-2` of the
spec's fitness formula (§4.5). -/
def specTourCost (costTable : CostTable) (dimension : ℕ) : List ℕ → ℚ
  | a :: b :: rest =>
      getRouteCost costTable dimension a b + specTourCost costTable dimension (b :: rest)
  | _ => 0

/-- The spec's fitness (§4.5, quoted by claim C1), written from the spec's
words for comparison with the code: `1 / cost(C)` with
`cost(C) = Σ costTable[c_k, c_{k+1}]` over `k = 0..N-2`, plus
`costTable[c_{N-1}, c_0]` iff `returnToOrigin` is true
(stated for the nonempty tours the solver works on). -/
def specFitness (costTable : CostTable) (dimension : ℕ)
    (returnToOrigin : Bool) (chromosome : Chromosome) : ℚ :=
  1 / (specTourCost costTable dimension chromosome +
    if returnToOrigin then
      getRouteCost costTable dimension (chromosome.getLastD 0) (chromosome.headD 0)
    else 0)

/-- The 4-node symmetric cost table of spec §8 scenario 1, in the
row-major `[origin, dest, cost]` layout the solver indexes into:
rows `[0,1,2,3]`, `[1,0,1,2]`, `[2,1,0,1]`, `[3,2,1,0]`. -/
def table4 : CostTable :=
  [(0, 0, 0), (0, 1, 1), (0, 2, 2), (0, 3, 3),
   (1, 0, 1), (1, 1, 0), (1, 2, 1), (1, 3, 2),
   (2, 0, 2), (2, 1, 1), (2, 2, 0), (2, 3, 1),
   (3, 0, 3), (3, 1, 2), (3, 2, 1), (3, 3, 0)]

/-- A `[chromosome, fitness]` pair, an entry of an `EvaluatedPopulation`
(`src/core/algorithms/ga/types.ts`). -/
abbrev EvaluatedEntry : Type := Chromosome × ℚ

/-- The fitness-ascending sort of `[chromosome, fitness]` pairs
(`quickSort` of `src/core/algorithms/ga/quickSort.ts`).  The source's
in-place median-of-three quicksort is modelled by an insertion sort with
the same comparator; the repository relies only on the fitness-ascending
ordering (worst first, best last), on which every ascending sort agrees
for the pairwise-distinct fitness values used in the concrete theorems
below. -/
def sortByFitness (l : List EvaluatedEntry) : List EvaluatedEntry :=
  List.insertionSort (fun a b => a.2 ≤ b.2) l

/-- `GA._survivalSelection` — `src/core/algorithms/ga/constants.ts`:
sort the last generation ascending by fitness, evaluate and sort the
evolved population, then
`nextGeneration.splice(nextGeneration.length - eliteCount, eliteCount,
...sortedLastGeneration.slice(0, eliteCount + 1))`, i.e. delete the
`eliteCount` final (fittest) entries of the evolved generation and insert
the `eliteCount + 1` initial (least fit) entries of the last generation.
The fitness evaluation of the evolved set is taken as input, already
paired (`_evaluatePopulationFitness` maps each chromosome to its
fitness). -/
def survivalSelection (eliteCount : ℕ)
    (lastGeneration evaluatedEvolved : List EvaluatedEntry) : List EvaluatedEntry :=
  let sortedLastGeneration := sortByFitness lastGeneration
  let nextGeneration := sortByFitness evaluatedEvolved
  nextGeneration.take (nextGeneration.length - eliteCount) ++
    sortedLastGeneration.take (eliteCount + 1)

/-- The key set of `new Map(nextGeneration)`: one entry per distinct
chromosome. -/
def mapKeys (l : List EvaluatedEntry) : List Chromosome :=
  (l.map Prod.fst).dedup

/-- A concrete previous generation (4 tours on 4 nodes, distinct fitness
values, best `[0,1,2,3]` at fitness `1/2`, i.e. cost 2). -/
def prevGen : List EvaluatedEntry :=
  [([0, 1, 2, 3], 1 / 2), ([0, 2, 1, 3], 1 / 4), ([0, 3, 1, 2], 1 / 5), ([0, 1, 3, 2], 1 / 10)]

/-- A concrete evolved population, disjoint from `prevGen`. -/
def evolvedGen : List EvaluatedEntry :=
  [([0, 2, 3, 1], 3 / 10), ([0, 3, 2, 1], 2 / 5)]

/-- A previous generation of size `P = 3` (its chromosomes distinct from
`evolvedGen3`'s), used against claim C3. -/
def prevGen3 : List EvaluatedEntry :=
  [([0, 1, 2, 3], 1 / 2), ([0, 2, 1, 3], 1 / 4), ([0, 3, 1, 2], 1 / 5)]

/-- An evolved population of size `P = 3`, disjoint from `prevGen3`. -/
def evolvedGen3 : List EvaluatedEntry :=
  [([0, 2, 3, 1], 3 / 10), ([0, 3, 2, 1], 2 / 5), ([0, 1, 3, 2], 1 / 10)]

end Routio

namespace Routio

/-- C1.  The claim states that `_evaluateChromosomeFitness` returns
`1 / (Σ costTable[c_k, c_{k+1}] + costTable[c_{N-1}, c_0] iff returnToOrigin)`,
and in particular that the tour `[0,1,2,3]` over the 4-node table costs 6.
The code disagrees on exactly that input: the guard
`this._returnToOrigin && firstGene && lastGene` treats the gene `0` as
falsy, so the closing edge `costTable[3,0] = 3` is skipped whenever the
tour starts (or ends) at node 0.  The code returns fitness `1/3`
(cost 3), while the claimed formula gives `1/6` (cost 6). -/
theorem evaluateChromosomeFitness_drops_closing_edge_at_node_zero :
    evaluateChromosomeFitness table4 4 true [0, 1, 2, 3] = 1 / 3 ∧
    specFitness table4 4 true [0, 1, 2, 3] = 1 / 6 ∧
    evaluateChromosomeFitness table4 4 true [0, 1, 2, 3] ≠
      specFitness table4 4 true [0, 1, 2, 3] := by
  refine ⟨?_, ?_, ?_⟩
  · norm_num [evaluateChromosomeFitness, fitnessStep, getRouteCost, table4]
  · norm_num [specFitness, specTourCost, getRouteCost, table4]
  · norm_num [evaluateChromosomeFitness, specFitness, specTourCost, fitnessStep,
      getRouteCost, table4]

end Routio

namespace Routio

/-- C2.  The claim states that `_survivalSelection` carries the
`eliteCount` highest-fitness chromosomes of the previous generation into
the next one, replacing the bottom entries of the evolved generation.
The code does the opposite: the sort is ascending by fitness, so
`sortedLastGeneration.slice(0, eliteCount + 1)` takes the `eliteCount + 1`
LEAST fit chromosomes of the previous generation, and the splice deletes
the `eliteCount` FITTEST entries of the evolved generation.  Concretely,
with `eliteCount = 2`, the previous generation `prevGen` (best tour
`[0,1,2,3]`, fitness `1/2`) and evolved population `evolvedGen`, the next
generation consists of the three worst previous chromosomes and has lost
`[0,1,2,3]` entirely. -/
theorem survivalSelection_discards_previous_best :
    mapKeys (survivalSelection 2 prevGen evolvedGen) =
      [[0, 1, 3, 2], [0, 3, 1, 2], [0, 2, 1, 3]] ∧
    [0, 1, 2, 3] ∉ mapKeys (survivalSelection 2 prevGen evolvedGen) := by
  have h : mapKeys (survivalSelection 2 prevGen evolvedGen) =
      [[0, 1, 3, 2], [0, 3, 1, 2], [0, 2, 1, 3]] := by
    norm_num [mapKeys, survivalSelection, sortByFitness, prevGen, evolvedGen,
      List.insertionSort, List.orderedInsert, List.dedup]
  exact ⟨h, by rw [h]; decide⟩

/-- C3, counterexample.  With population size `P = 3` and
`eliteCount = 2`, a large-problem iteration (`prevGen3` of size 3 and an
evolved population `evolvedGen3` of size 3, disjoint from it) yields a
next generation of 4 distinct chromosomes, not `P = 3`: the splice
deletes `eliteCount` entries but inserts `eliteCount + 1`. -/
theorem survivalSelection_size_not_P :
    evolvedGen3.length = 3 ∧
    (mapKeys (survivalSelection 2 prevGen3 evolvedGen3)).length ≠ 3 := by
  constructor
  · norm_num [evolvedGen3]
  · have h : mapKeys (survivalSelection 2 prevGen3 evolvedGen3) =
        [[0, 1, 3, 2], [0, 3, 1, 2], [0, 2, 1, 3], [0, 1, 2, 3]] := by
      norm_num [mapKeys, survivalSelection, sortByFitness, prevGen3, evolvedGen3,
        List.insertionSort, List.orderedInsert, List.dedup]
    rw [h]; decide

/-- C3, amended.  For a large problem, every generation produced by
`_survivalSelection` in the loop has exactly `P + 1` distinct chromosomes
(not `P`): the evolved population has `P` distinct chromosomes, all
absent from the previous generation, and the splice removes `eliteCount`
of them while inserting `eliteCount + 1` previous ones. -/
theorem survivalSelection_next_size (E P : ℕ)
    (lastGeneration evolved : List EvaluatedEntry)
    (hP : evolved.length = P) (hEP : E ≤ P)
    (hlast : E + 1 ≤ lastGeneration.length)
    (hnde : (evolved.map Prod.fst).Nodup)
    (hdisj : ∀ c ∈ evolved.map Prod.fst, c ∉ lastGeneration.map Prod.fst)
    (hndl : (lastGeneration.map Prod.fst).Nodup) :
    (mapKeys (survivalSelection E lastGeneration evolved)).length = P + 1 := by
  classical
  unfold survivalSelection mapKeys
  have hpermE : (sortByFitness evolved).Perm evolved := List.perm_insertionSort _ _
  have hpermL : (sortByFitness lastGeneration).Perm lastGeneration :=
    List.perm_insertionSort _ _
  have hmapE : ((sortByFitness evolved).map Prod.fst).Perm (evolved.map Prod.fst) :=
    hpermE.map _
  have hmapL :
      ((sortByFitness lastGeneration).map Prod.fst).Perm (lastGeneration.map Prod.fst) :=
    hpermL.map _
  have hlenE : (sortByFitness evolved).length = P := by rw [hpermE.length_eq, hP]
  have hlenL : (sortByFitness lastGeneration).length = lastGeneration.length :=
    hpermL.length_eq
  have hkeys :
      (((sortByFitness evolved).take ((sortByFitness evolved).length - E) ++
        (sortByFitness lastGeneration).take (E + 1)).map Prod.fst) =
      ((sortByFitness evolved).map Prod.fst).take ((sortByFitness evolved).length - E) ++
        ((sortByFitness lastGeneration).map Prod.fst).take (E + 1) := by
    simp [List.map_take]
  rw [hkeys]
  have hnd :
      (((sortByFitness evolved).map Prod.fst).take ((sortByFitness evolved).length - E) ++
        ((sortByFitness lastGeneration).map Prod.fst).take (E + 1)).Nodup := by
    rw [List.nodup_append]
    refine ⟨((hmapE.nodup_iff).mpr hnde).sublist (List.take_sublist _ _),
           ((hmapL.nodup_iff).mpr hndl).sublist (List.take_sublist _ _), ?_⟩
    intro a ha ha'
    have h1 : a ∈ evolved.map Prod.fst :=
      hmapE.subset (List.take_subset _ _ ha)
    have h2 : a ∈ lastGeneration.map Prod.fst :=
      hmapL.subset (List.take_subset _ _ ha')
    exact hdisj a h1 h2
  rw [List.dedup_eq_self.mpr hnd]
  rw [List.length_append, List.length_take, List.length_take,
    List.length_map, List.length_map, hlenE, hlenL]
  omega

/-- Witness for `survivalSelection_next_size` at `P = 3`, `E = 2`. -/
theorem survivalSelection_next_size_witness :
    (mapKeys (survivalSelection 2 prevGen3 evolvedGen3)).length = 3 + 1 :=
  survivalSelection_next_size 2 3 prevGen3 evolvedGen3
    (by norm_num [evolvedGen3]) (by norm_num)
    (by norm_num [prevGen3])
    (by decide) (by decide) (by decide)

end Routio

namespace Routio

/-- JavaScript truthiness of a possibly-undefined number:
`!x` is true when `x` is `undefined` (here `none`) or `0`. -/
def jsFalsy (o : Option ℚ) : Prop :=
  o = none ∨ o = some 0

instance : DecidablePred jsFalsy := fun o => by unfold jsFalsy; infer_instance

/-- The solver's partial result record `this._solution`
(`SolvedProblem`, `src/types`), with undefined fields as `none`.
`solvedIn` (wall time) is not modelled. -/
structure SolutionState where
  generations : ℕ
  solution : Option Chromosome
  bestCost : Option ℚ
  bestCostGeneration : Option ℕ
  worstCost : Option ℚ
  worstCostGeneration : Option ℕ
  bestCostHistory : List ℚ
  worstCostHistory : List ℚ
deriving Repr, DecidableEq

/-- `this._solution = {}`: the record before any registration. -/
def initialSolutionState : SolutionState :=
  ⟨0, none, none, none, none, none, [], []⟩

/-- `sortedPopulation[sortedPopulation.length - 1]` in
`GA._registerSolutionStats`: the best (fittest) entry of an evaluated
population, with the source's ascending-by-fitness sort. -/
def bestOf (population : List EvaluatedEntry) : EvaluatedEntry :=
  (sortByFitness population).getLastD ([], 0)

/-- `sortedPopulation[0]`, the worst (least fit) entry. -/
def worstOf (population : List EvaluatedEntry) : EvaluatedEntry :=
  (sortByFitness population).headD ([], 0)

/-- `!this._solution.bestCost || this._solution.bestCost > bestCost`:
the best-statistics update guard of `_registerSolutionStats`. -/
def updateBestCond (population : List EvaluatedEntry) (s : SolutionState) : Prop :=
  jsFalsy s.bestCost ∨ s.bestCost.getD 0 > 1 / (bestOf population).2

/-- `!this._solution.worstCost || this._solution.worstCost < worstCost`:
the worst-statistics update guard of `_registerSolutionStats`. -/
def updateWorstCond (population : List EvaluatedEntry) (s : SolutionState) : Prop :=
  jsFalsy s.worstCost ∨ s.worstCost.getD 0 < 1 / (worstOf population).2

instance (population : List EvaluatedEntry) (s : SolutionState) :
    Decidable (updateBestCond population s) := by unfold updateBestCond; infer_instance

instance (population : List EvaluatedEntry) (s : SolutionState) :
    Decidable (updateWorstCond population s) := by unfold updateWorstCond; infer_instance

/-- `GA._registerSolutionStats` — `src/core/algorithms/ga/constants.ts`.
Sorts the population ascending by fitness; the tail entry is the best,
the head the worst; their costs are the fitness reciprocals.
`bestCost`/`bestCostGeneration` update under `updateBestCond`
(`worstCost`/`worstCostGeneration` under `updateWorstCond`), and both
per-generation costs are pushed onto the history arrays.
`generationCount` is the solver's counter at call time (1 for the seed
generation). -/
def registerSolutionStats (generationCount : ℕ)
    (population : List EvaluatedEntry) (s : SolutionState) : SolutionState :=
  { generations := generationCount
    solution :=
      if updateBestCond population s then some (bestOf population).1 else s.solution
    bestCost :=
      if updateBestCond population s then some (1 / (bestOf population).2) else s.bestCost
    bestCostGeneration :=
      if updateBestCond population s then some generationCount else s.bestCostGeneration
    worstCost :=
      if updateWorstCond population s then some (1 / (worstOf population).2) else s.worstCost
    worstCostGeneration :=
      if updateWorstCond population s then some generationCount else s.worstCostGeneration
    bestCostHistory := s.bestCostHistory ++ [1 / (bestOf population).2]
    worstCostHistory := s.worstCostHistory ++ [1 / (worstOf population).2] }

/-- The solve loop's sequence of stats registrations
(`GA.solve`): the seed generation is registered with
`_generationCount = 1`, and each later generation after the counter's
increment. -/
def runStats : ℕ → SolutionState → List (List EvaluatedEntry) → SolutionState
  | _, s, [] => s
  | generationCount, s, population :: rest =>
      runStats (generationCount + 1)
        (registerSolutionStats generationCount population s) rest

/-- The invariant tying `bestCostGeneration`/`worstCostGeneration` to the
history arrays: the histories hold one entry per registration so far, the
cost and generation fields are defined together, and the recorded value
sits at history index `generation - 1`. -/
def StatsInv (generationCount : ℕ) (s : SolutionState) : Prop :=
  s.bestCostHistory.length + 1 = generationCount ∧
  s.worstCostHistory.length + 1 = generationCount ∧
  (s.bestCost.isSome ↔ s.bestCostGeneration.isSome) ∧
  (s.worstCost.isSome ↔ s.worstCostGeneration.isSome) ∧
  (s.bestCostGeneration.isSome ∨ s.bestCostHistory = []) ∧
  (s.worstCostGeneration.isSome ∨ s.worstCostHistory = []) ∧
  (∀ gb, s.bestCostGeneration = some gb →
    ∃ b, s.bestCost = some b ∧ 1 ≤ gb ∧ s.bestCostHistory[gb - 1]? = some b) ∧
  (∀ gw, s.worstCostGeneration = some gw →
    ∃ w, s.worstCost = some w ∧ 1 ≤ gw ∧ s.worstCostHistory[gw - 1]? = some w)

end Routio

namespace Routio

/-- `StatsInv` holds for the empty record before any registration. -/
theorem statsInv_initial : StatsInv 1 initialSolutionState := by
  refine ⟨rfl, rfl, by simp [initialSolutionState], by simp [initialSolutionState],
    by simp [initialSolutionState], by simp [initialSolutionState], ?_, ?_⟩ <;>
    intro g hg <;> simp [initialSolutionState] at hg

/-- One `_registerSolutionStats` call preserves `StatsInv`, advancing the
generation counter. -/
theorem statsInv_register (generationCount : ℕ) (population : List EvaluatedEntry)
    (s : SolutionState) (h : StatsInv generationCount s) :
    StatsInv (generationCount + 1) (registerSolutionStats generationCount population s) := by
  obtain ⟨hbl, hwl, hbs, hws, hbg, hwg, hbest, hworst⟩ := h
  have hrb : (registerSolutionStats generationCount population s).bestCost =
      if updateBestCond population s then some (1 / (bestOf population).2)
      else s.bestCost := rfl
  have hrbg : (registerSolutionStats generationCount population s).bestCostGeneration =
      if updateBestCond population s then some generationCount
      else s.bestCostGeneration := rfl
  have hrw : (registerSolutionStats generationCount population s).worstCost =
      if updateWorstCond population s then some (1 / (worstOf population).2)
      else s.worstCost := rfl
  have hrwg : (registerSolutionStats generationCount population s).worstCostGeneration =
      if updateWorstCond population s then some generationCount
      else s.worstCostGeneration := rfl
  have hrbh : (registerSolutionStats generationCount population s).bestCostHistory =
      s.bestCostHistory ++ [1 / (bestOf population).2] := rfl
  have hrwh : (registerSolutionStats generationCount population s).worstCostHistory =
      s.worstCostHistory ++ [1 / (worstOf population).2] := rfl
  refine ⟨?_, ?_, ?_, ?_, ?_, ?_, ?_, ?_⟩
  · rw [hrbh]; simp; omega
  · rw [hrwh]; simp; omega
  · rw [hrb, hrbg]
    by_cases hub : updateBestCond population s
    · rw [if_pos hub, if_pos hub]; simp
    · rw [if_neg hub, if_neg hub]; exact hbs
  · rw [hrw, hrwg]
    by_cases huw : updateWorstCond population s
    · rw [if_pos huw, if_pos huw]; simp
    · rw [if_neg huw, if_neg huw]; exact hws
  · left
    rw [hrbg]
    by_cases hub : updateBestCond population s
    · rw [if_pos hub]; simp
    · rw [if_neg hub]
      have hnotfalsy : ¬ jsFalsy s.bestCost := fun hf => hub (Or.inl hf)
      have hsome : s.bestCost.isSome := by
        cases hoc : s.bestCost with
        | none => exact absurd (Or.inl hoc) hnotfalsy
        | some c => simp
      exact hbs.mp hsome
  · left
    rw [hrwg]
    by_cases huw : updateWorstCond population s
    · rw [if_pos huw]; simp
    · rw [if_neg huw]
      have hnotfalsy : ¬ jsFalsy s.worstCost := fun hf => huw (Or.inl hf)
      have hsome : s.worstCost.isSome := by
        cases hoc : s.worstCost with
        | none => exact absurd (Or.inl hoc) hnotfalsy
        | some c => simp
      exact hws.mp hsome
  · intro gb hgb
    rw [hrbg] at hgb
    rw [hrb, hrbh]
    by_cases hub : updateBestCond population s
    · rw [if_pos hub] at hgb
      rw [if_pos hub]
      have hgbe : generationCount = gb := Option.some.inj hgb
      refine ⟨1 / (bestOf population).2, rfl, by omega, ?_⟩
      have hidx : gb - 1 = s.bestCostHistory.length := by omega
      rw [hidx, List.getElem?_concat_length]
    · rw [if_neg hub] at hgb
      rw [if_neg hub]
      obtain ⟨b, hb, h1, hidx⟩ := hbest gb hgb
      have hlt : gb - 1 < s.bestCostHistory.length := by
        rw [List.getElem?_eq_some] at hidx
        exact hidx.1
      exact ⟨b, hb, h1, by rw [List.getElem?_append_left hlt]; exact hidx⟩
  · intro gw hgw
    rw [hrwg] at hgw
    rw [hrw, hrwh]
    by_cases huw : updateWorstCond population s
    · rw [if_pos huw] at hgw
      rw [if_pos huw]
      have hgwe : generationCount = gw := Option.some.inj hgw
      refine ⟨1 / (worstOf population).2, rfl, by omega, ?_⟩
      have hidx : gw - 1 = s.worstCostHistory.length := by omega
      rw [hidx, List.getElem?_concat_length]
    · rw [if_neg huw] at hgw
      rw [if_neg huw]
      obtain ⟨w, hw, h1, hidx⟩ := hworst gw hgw
      have hlt : gw - 1 < s.worstCostHistory.length := by
        rw [List.getElem?_eq_some] at hidx
        exact hidx.1
      exact ⟨w, hw, h1, by rw [List.getElem?_append_left hlt]; exact hidx⟩

/-- Folding `_registerSolutionStats` over a run of generations preserves
`StatsInv`. -/
theorem statsInv_runStats (pops : List (List EvaluatedEntry)) :
    ∀ (generationCount : ℕ) (s : SolutionState), StatsInv generationCount s →
      StatsInv (generationCount + pops.length) (runStats generationCount s pops) := by
  induction pops with
  | nil => intro g s h; simpa [runStats] using h
  | cons pop rest ih =>
      intro g s h
      have h' := ih (g + 1) (registerSolutionStats g pop s) (statsInv_register g pop s h)
      simpa [runStats, Nat.add_comm, Nat.add_assoc, Nat.add_left_comm] using h'

end Routio

namespace Routio

/-- A one-chromosome evaluated population (tour `[0,1,2]`, fitness `1/3`,
cost 3) for exercising the stats registration. -/
def popA : List EvaluatedEntry := [([0, 1, 2], 1 / 3)]

/-- C4, counterexample.  After the very first stats registration (the
seed generation, registered with `_generationCount = 1`), the record has
`bestCostGeneration = 1` and `bestCostHistory = [bestCost]`, so
`bestCostHistory[bestCostGeneration]` reads index 1 of a one-element
array and is undefined, not `bestCost`; generation numbers are 1-based
while the history array is 0-based. -/
theorem solutionStats_claimed_index_fails :
    (runStats 1 initialSolutionState [popA]).bestCostGeneration = some 1 ∧
    (runStats 1 initialSolutionState [popA]).bestCost = some 3 ∧
    (runStats 1 initialSolutionState [popA]).bestCostHistory = [3] ∧
    (runStats 1 initialSolutionState [popA]).bestCostHistory[(1 : ℕ)]? ≠ some 3 := by
  refine ⟨?_, ?_, ?_, ?_⟩ <;>
    norm_num [runStats, registerSolutionStats, updateBestCond, updateWorstCond,
      jsFalsy, bestOf, worstOf, sortByFitness, initialSolutionState, popA,
      List.insertionSort, List.orderedInsert]
  all_goals simp

/-- C4, amended.  At every point after at least one stats registration,
the solution record satisfies
`bestCostHistory[bestCostGeneration - 1] == bestCost` and symmetrically
`worstCostHistory[worstCostGeneration - 1] == worstCost`: the histories
are 0-based while the generation counter starts at 1 for the seed
generation, so the claim's indices are off by one. -/
theorem solutionStats_history_at_generation (pops : List (List EvaluatedEntry))
    (h : pops ≠ []) :
    ∃ gb b gw w,
      (runStats 1 initialSolutionState pops).bestCostGeneration = some gb ∧
      (runStats 1 initialSolutionState pops).bestCost = some b ∧
      (runStats 1 initialSolutionState pops).bestCostHistory[gb - 1]? = some b ∧
      (runStats 1 initialSolutionState pops).worstCostGeneration = some gw ∧
      (runStats 1 initialSolutionState pops).worstCost = some w ∧
      (runStats 1 initialSolutionState pops).worstCostHistory[gw - 1]? = some w := by
  have hinv := statsInv_runStats pops 1 initialSolutionState statsInv_initial
  obtain ⟨hbl, hwl, hbs, hws, hbg, hwg, hbest, hworst⟩ := hinv
  have hplen : 1 ≤ pops.length := by
    cases pops with
    | nil => exact absurd rfl h
    | cons p ps => simp
  have hblen : 1 ≤ (runStats 1 initialSolutionState pops).bestCostHistory.length := by
    omega
  have hwlen : 1 ≤ (runStats 1 initialSolutionState pops).worstCostHistory.length := by
    omega
  have hbne : (runStats 1 initialSolutionState pops).bestCostHistory ≠ [] := by
    intro hemp
    rw [hemp] at hblen
    simp at hblen
  have hwne : (runStats 1 initialSolutionState pops).worstCostHistory ≠ [] := by
    intro hemp
    rw [hemp] at hwlen
    simp at hwlen
  have hgsome : (runStats 1 initialSolutionState pops).bestCostGeneration.isSome := by
    rcases hbg with hs | hemp
    · exact hs
    · exact absurd hemp hbne
  have hwsome : (runStats 1 initialSolutionState pops).worstCostGeneration.isSome := by
    rcases hwg with hs | hemp
    · exact hs
    · exact absurd hemp hwne
  obtain ⟨gb, hgb⟩ := Option.isSome_iff_exists.mp hgsome
  obtain ⟨gw, hgw⟩ := Option.isSome_iff_exists.mp hwsome
  obtain ⟨b, hb, _, hbidx⟩ := hbest gb hgb
  obtain ⟨w, hw, _, hwidx⟩ := hworst gw hgw
  exact ⟨gb, b, gw, w, hgb, hb, hbidx, hgw, hw, hwidx⟩

/-- Witness for `solutionStats_history_at_generation` on the single
registered generation `popA`. -/
theorem solutionStats_history_at_generation_witness :
    ∃ gb b gw w,
      (runStats 1 initialSolutionState [popA]).bestCostGeneration = some gb ∧
      (runStats 1 initialSolutionState [popA]).bestCost = some b ∧
      (runStats 1 initialSolutionState [popA]).bestCostHistory[gb - 1]? = some b ∧
      (runStats 1 initialSolutionState [popA]).worstCostGeneration = some gw ∧
      (runStats 1 initialSolutionState [popA]).worstCost = some w ∧
      (runStats 1 initialSolutionState [popA]).worstCostHistory[gw - 1]? = some w :=
  solutionStats_history_at_generation [popA] (by simp)

end Routio

namespace Routio

/-- `GA._mutate` — `src/core/algorithms/ga/constants.ts`.  The code draws
two distinct loci and swaps them into ascending order; here they arrive
already ordered as `firstLocus ≤ lastLocus`.  It then (1) reverses the
slice `[firstLocus, lastLocus]` (`slice(firstLocus, lastLocus + 1).reverse()`),
(2) deletes the reversed block's genes from the chromosome by value
(`filter((gene) => !invertedPart.includes(gene))`), and (3) splices the
block back in at `displacementPosition`.  The final
`chrToStr(new Set(chromosomeArray))` round-trip is the identity on the
duplicate-free gene lists the solver feeds it. -/
def mutate (chromosome : Chromosome)
    (firstLocus lastLocus displacementPosition : ℕ) : Chromosome :=
  let invertedPart :=
    ((chromosome.drop firstLocus).take (lastLocus - firstLocus + 1)).reverse
  let rest := chromosome.filter (fun gene => !(invertedPart.contains gene))
  rest.take displacementPosition ++ invertedPart ++ rest.drop displacementPosition

/-- Filtering a duplicate-free list down to the members of one of its
sublists returns exactly that sublist. -/
theorem filter_contains_sublist_eq {s c : List ℕ} (hs : s.Sublist c) (hc : c.Nodup) :
    c.filter (fun g => s.contains g) = s := by
  induction hs with
  | slnil => rfl
  | @cons l1 l2 a hs ih =>
      have hnd := List.nodup_cons.mp hc
      have has : a ∉ l1 := fun hmem => hnd.1 (hs.subset hmem)
      simp only [List.filter_cons]
      rw [if_neg (by simpa using has)]
      exact ih hnd.2
  | @cons₂ l1 l2 a hs ih =>
      have hnd := List.nodup_cons.mp hc
      simp only [List.filter_cons]
      rw [if_pos (by simp)]
      have hfc : l2.filter (fun g => (a :: l1).contains g) =
          l2.filter (fun g => l1.contains g) := by
        apply List.filter_congr
        intro g hg
        have hga : g ≠ a := fun he => hnd.1 (he ▸ hg)
        simp only [List.contains_cons, Bool.or_eq_true, beq_iff_eq]
        simp [List.elem_eq_mem]
        exact fun he => absurd he hga
      rw [hfc, ih hnd.2]

/-- The mutated chromosome is a permutation of the original: the filter
removes exactly the genes of the reversed block (the chromosome is
duplicate-free), and the splice reinserts them. -/
theorem mutate_perm (c : Chromosome) (a b p : ℕ) (hnd : c.Nodup) :
    (mutate c a b p).Perm c := by
  unfold mutate
  dsimp only
  set s0 := (c.drop a).take (b - a + 1) with hs0
  have hsub : s0.Sublist c := (List.take_sublist _ _).trans (List.drop_sublist _ _)
  have hfe : c.filter (fun g => !(s0.reverse.contains g)) =
      c.filter (fun g => !(s0.contains g)) := by
    apply List.filter_congr
    intro g _
    simp [List.elem_eq_mem, List.mem_reverse]
  rw [hfe]
  set rest := c.filter (fun g => !(s0.contains g)) with hrest
  have h1 : (rest.take p ++ s0.reverse ++ rest.drop p).Perm
      (s0.reverse ++ (rest.take p ++ rest.drop p)) := by
    rw [List.append_assoc]
    refine (List.perm_append_comm).trans ?_
    rw [List.append_assoc]
    exact List.Perm.append_left _ List.perm_append_comm
  have h2 : (s0.reverse ++ (rest.take p ++ rest.drop p)).Perm (s0 ++ rest) := by
    rw [List.take_append_drop]
    exact (List.reverse_perm s0).append_right rest
  have h3 : (s0 ++ rest).Perm c := by
    have hfilter : c.filter (fun g => s0.contains g) = s0 :=
      filter_contains_sublist_eq hsub hnd
    have hap := List.filter_append_perm (fun g => s0.contains g) c
    rw [hfilter] at hap
    exact hap
  exact (h1.trans h2).trans h3

/-- C6.  For every chromosome that is a permutation of `[0,N)` with
`N ≥ 3` and every draw of the two (ordered, distinct) mutation loci and
of the displacement position, `_mutate` returns a chromosome with the
same multiset of genes — the sorted gene lists coincide — and the gene
count is unchanged, so the implementation's
`chromosomeArray.length !== chromosome.size` assertion never fires. -/
theorem mutate_preserves_gene_multiset (c : Chromosome) (N a b p : ℕ)
    (_hN3 : 3 ≤ N) (hperm : c.Perm (List.range N))
    (_hab : a < b) (_hb : b < N)
    (_hp : p ≤ N - (b - a + 1)) :
    (mutate c a b p).insertionSort (· ≤ ·) = c.insertionSort (· ≤ ·) ∧
    (mutate c a b p).length = c.length := by
  have hnd : c.Nodup := hperm.nodup_iff.mpr (List.nodup_range N)
  have hmp : (mutate c a b p).Perm c := mutate_perm c a b p hnd
  constructor
  · have hp12 : ((mutate c a b p).insertionSort (· ≤ ·)).Perm
        (c.insertionSort (· ≤ ·)) :=
      (List.perm_insertionSort _ _).trans
        (hmp.trans (List.perm_insertionSort _ _).symm)
    exact List.eq_of_perm_of_sorted hp12
      (List.sorted_insertionSort _ _) (List.sorted_insertionSort _ _)
  · exact hmp.length_eq

/-- Witness for `mutate_preserves_gene_multiset`:
`mutate [0,1,2,3] 1 2 1 = [0,2,1,3]`. -/
theorem mutate_preserves_gene_multiset_witness :
    ([0, 1, 2, 3] : Chromosome).Perm (List.range 4) ∧
    (mutate [0, 1, 2, 3] 1 2 1).insertionSort (· ≤ ·) =
      ([0, 1, 2, 3] : Chromosome).insertionSort (· ≤ ·) ∧
    (mutate [0, 1, 2, 3] 1 2 1).length = ([0, 1, 2, 3] : Chromosome).length :=
  ⟨by decide,
   mutate_preserves_gene_multiset [0, 1, 2, 3] 4 1 2 1 (by decide) (by decide)
     (by decide) (by decide) (by decide)⟩

end Routio

namespace Routio

/-- During crossover the source works on plain arrays of genes with the
hole marker `-1` spliced in, so genes are carried as integers here. -/
abbrev GeneArray : Type := List ℤ

/-- `offspring.splice(offspring.indexOf(v), 1, -1)` in `GA._mate`:
replace the first occurrence of the gene `v` by the hole marker `-1`.
(When `v` is absent, JavaScript's `indexOf` returns `-1` and the splice
would clobber the last slot; the permutation hypotheses of the theorems
below guarantee every punched gene is present.) -/
def punchHole (offspring : GeneArray) (v : ℤ) : GeneArray :=
  match offspring with
  | [] => []
  | x :: xs => if x = v then -1 :: xs else x :: punchHole xs v

/-- The hole-punching pass of `GA._mate`: for each selected locus, delete
the gene `parentOther[locus]` from the offspring, leaving a hole. -/
def punchHoles (parentOther : GeneArray) (loci : List ℕ)
    (offspring : GeneArray) : GeneArray :=
  loci.foldl (fun off locus => punchHole off (parentOther.getD locus 0)) offspring

/-- The inner `for … of offspring.entries()` loop with `break` in
`GA._mate`: write `v` into the first remaining hole. -/
def fillHole (offspring : GeneArray) (v : ℤ) : GeneArray :=
  match offspring with
  | [] => []
  | x :: xs => if x = -1 then v :: xs else x :: fillHole xs v

/-- The hole-filling pass of `GA._mate`: iterate the selected loci in
ascending order, filling the first remaining hole with
`parentOther[locus]`. -/
def fillHoles (parentOther : GeneArray) (sortedLoci : List ℕ)
    (offspring : GeneArray) : GeneArray :=
  sortedLoci.foldl (fun off locus => fillHole off (parentOther.getD locus 0)) offspring

/-- One offspring of `GA._mate` — `src/core/algorithms/ga/constants.ts`:
start as a copy of the like-indexed parent, punch a hole for
`parentOther[locus]` at each selected locus (in the selection set's
iteration order), then fill the holes left-to-right with
`parentOther[locus]` for the selected loci in ascending order
(`sortedSelectedLoci`). -/
def mateChild (parentSelf parentOther : GeneArray) (loci : List ℕ) : GeneArray :=
  fillHoles parentOther (loci.insertionSort (· ≤ ·))
    (punchHoles parentOther loci parentSelf)

/-- The cumulative effect of hole punching: every gene in `vals` is
replaced by `-1`. -/
def maskList (vals : List ℤ) (l : GeneArray) : GeneArray :=
  l.map (fun g => if g ∈ vals then -1 else g)

theorem maskList_nil (l : GeneArray) : maskList [] l = l := by
  simp [maskList]

theorem maskList_congr {v₁ v₂ : List ℤ} {l : GeneArray}
    (h : ∀ g ∈ l, g ∈ v₁ ↔ g ∈ v₂) : maskList v₁ l = maskList v₂ l := by
  unfold maskList
  apply List.map_congr_left
  intro g hg
  by_cases hgv : g ∈ v₁
  · rw [if_pos hgv, if_pos ((h g hg).mp hgv)]
  · rw [if_neg hgv, if_neg (fun hc => hgv ((h g hg).mpr hc))]

/-- Punching a present, not-yet-punched gene out of a partially masked
duplicate-free array extends the mask by that gene. -/
theorem punchHole_maskList (A : GeneArray) (S : List ℤ) (v : ℤ)
    (hnd : A.Nodup) (hneg : (-1 : ℤ) ∉ A) (hv : v ∈ A) (hvS : v ∉ S) :
    punchHole (maskList S A) v = maskList (S ++ [v]) A := by
  induction A with
  | nil => simp at hv
  | cons x xs ih =>
      have hndx := List.nodup_cons.mp hnd
      have hnegx : (-1 : ℤ) ≠ x := fun he => hneg (by rw [← he]; exact List.mem_cons_self _ _)
      have hnegxs : (-1 : ℤ) ∉ xs := fun hm => hneg (List.mem_cons_of_mem _ hm)
      by_cases hxS : x ∈ S
      · have hxv : v ≠ x := fun he => hvS (he ▸ hxS)
        have hvxs : v ∈ xs := by
          rcases List.mem_cons.mp hv with he | hm
          · exact absurd he hxv
          · exact hm
        simp only [maskList, List.map_cons, if_pos hxS, punchHole]
        rw [if_neg (fun he => hneg (by rw [he]; exact hv))]
        have := ih hndx.2 hnegxs hvxs
        simp only [maskList] at this
        rw [this]
        simp [maskList, List.mem_append, hxS]
      · by_cases hxv : x = v
        · subst hxv
          simp only [maskList, List.map_cons, if_neg hxS, punchHole, if_pos rfl]
          have hxxs : x ∉ xs := hndx.1
          have hmc : maskList S xs = maskList (S ++ [x]) xs := by
            apply maskList_congr
            intro g hg
            have hgx : g ≠ x := fun he => hxxs (he ▸ hg)
            simp [List.mem_append, hgx]
          simp only [maskList] at hmc
          rw [← hmc]
          simp [maskList, List.mem_append, hxS]
        · have hvxs : v ∈ xs := by
            rcases List.mem_cons.mp hv with he | hm
            · exact absurd he.symm hxv
            · exact hm
          simp only [maskList, List.map_cons, if_neg hxS, punchHole]
          rw [if_neg hxv]
          have := ih hndx.2 hnegxs hvxs
          simp only [maskList] at this
          rw [this]
          simp [maskList, List.mem_append, hxS, hxv]

end Routio

namespace Routio

/-- The hole-punching pass over a partially masked array masks exactly
the punched genes, independent of the punching order. -/
theorem punchHoles_maskList (B A : GeneArray)
    (hnd : A.Nodup) (hneg : (-1 : ℤ) ∉ A) (loci : List ℕ) :
    ∀ (S : List ℤ),
      (∀ l ∈ loci, B.getD l 0 ∈ A) →
      (S ++ loci.map (fun l => B.getD l 0)).Nodup →
      punchHoles B loci (maskList S A) =
        maskList (S ++ loci.map (fun l => B.getD l 0)) A := by
  induction loci with
  | nil => intro S _ _; simp [punchHoles]
  | cons l rest ih =>
      intro S hmem hnodup
      have hvS : B.getD l 0 ∉ S := by
        rw [List.nodup_append] at hnodup
        exact fun hS => hnodup.2.2 hS (by simp)
      simp only [punchHoles, List.foldl_cons]
      rw [punchHole_maskList A S (B.getD l 0) hnd hneg
        (hmem l (List.mem_cons_self _ _)) hvS]
      have hres := ih (S ++ [B.getD l 0])
        (fun l' hl' => hmem l' (List.mem_cons_of_mem _ hl'))
        (by simpa [List.append_assoc] using hnodup)
      simp only [punchHoles] at hres
      rw [hres]
      simp [List.append_assoc]

/-- `punchHoles` on the raw parent copy is the mask by the punched
genes. -/
theorem punchHoles_eq_maskList (B A : GeneArray) (loci : List ℕ)
    (hnd : A.Nodup) (hneg : (-1 : ℤ) ∉ A)
    (hmem : ∀ l ∈ loci, B.getD l 0 ∈ A)
    (hvals : (loci.map (fun l => B.getD l 0)).Nodup) :
    punchHoles B loci A = maskList (loci.map (fun l => B.getD l 0)) A := by
  have h := punchHoles_maskList B A hnd hneg loci [] hmem (by simpa using hvals)
  simpa [maskList_nil] using h

/-- Filling the first hole with a non-hole value is, up to permutation,
prepending the value and deleting one hole. -/
theorem fillHole_perm (xs : GeneArray) (v : ℤ) (h : (-1 : ℤ) ∈ xs) :
    (fillHole xs v).Perm (v :: xs.erase (-1)) := by
  induction xs with
  | nil => simp at h
  | cons x xs ih =>
      by_cases hx : x = -1
      · subst hx
        simp [fillHole, List.erase_cons_head]
      · have hxs : (-1 : ℤ) ∈ xs := by
          rcases List.mem_cons.mp h with he | hm
          · exact absurd he.symm hx
          · exact hm
        simp only [fillHole]
        rw [if_neg hx]
        have herase : (x :: xs).erase (-1) = x :: xs.erase (-1) :=
          List.erase_cons_tail (by simpa using hx)
        rw [herase]
        exact (List.Perm.cons x (ih hxs)).trans (List.Perm.swap v x _)

/-- Deleting one hole commutes with filtering all holes away. -/
theorem erase_filter_ne (l : GeneArray) (a : ℤ) :
    (l.erase a).filter (fun x => x != a) = l.filter (fun x => x != a) := by
  induction l with
  | nil => rfl
  | cons x xs ih =>
      by_cases hx : x = a
      · subst hx
        rw [List.erase_cons_head]
        simp [List.filter_cons]
      · rw [List.erase_cons_tail (by simpa using hx)]
        simp only [List.filter_cons]
        rw [if_pos (by simpa using hx), if_pos (by simpa using hx), ih]

/-- The hole-filling fold: with exactly as many holes as fill values, the
result is — up to permutation — the fill values together with the
non-hole entries. -/
theorem fillFold_perm (vs : List ℤ) :
    ∀ (xs : GeneArray), (-1 : ℤ) ∉ vs → xs.count (-1) = vs.length →
    (vs.foldl fillHole xs).Perm (vs ++ xs.filter (fun x => x != -1)) := by
  induction vs with
  | nil =>
      intro xs _ hcount
      have hnone : (-1 : ℤ) ∉ xs := List.count_eq_zero.mp (by simpa using hcount)
      have hself : xs.filter (fun x => x != -1) = xs :=
        List.filter_eq_self.mpr (fun x hx => by
          have hxne : x ≠ -1 := fun he => hnone (by rw [← he]; exact hx)
          simpa using hxne)
      simp [hself]
  | cons v vs ih =>
      intro xs hneg hcount
      have hvne : v ≠ -1 := fun he => hneg (he ▸ List.mem_cons_self _ _)
      have hmem : (-1 : ℤ) ∈ xs := by
        have : 0 < xs.count (-1) := by rw [hcount]; simp
        exact List.count_pos_iff.mp this
      simp only [List.foldl_cons]
      have hperm1 : (fillHole xs v).Perm (v :: xs.erase (-1)) := fillHole_perm xs v hmem
      have hcount' : (fillHole xs v).count (-1) = vs.length := by
        rw [hperm1.count_eq]
        rw [List.count_cons_of_ne (fun he => hvne he.symm)]
        rw [List.count_erase_self, hcount]
        simp
      have ih' := ih (fillHole xs v) (fun hm => hneg (List.mem_cons_of_mem _ hm)) hcount'
      refine ih'.trans ?_
      have hfperm : ((fillHole xs v).filter (fun x => x != -1)).Perm
          ((v :: xs.erase (-1)).filter (fun x => x != -1)) := hperm1.filter _
      have hfeq : (v :: xs.erase (-1)).filter (fun x => x != -1) =
          v :: xs.filter (fun x => x != -1) := by
        simp only [List.filter_cons]
        rw [if_pos (by simpa using hvne), erase_filter_ne]
      rw [hfeq] at hfperm
      refine (List.Perm.append_left vs hfperm).trans ?_
      exact List.perm_middle

end Routio

namespace Routio

/-- The mask leaves exactly one hole per masked gene (on hole-free
arrays). -/
theorem maskList_count (vals : List ℤ) (A : GeneArray)
    (hneg : ∀ g ∈ A, g ≠ -1) :
    (maskList vals A).count (-1) = A.countP (fun g => decide (g ∈ vals)) := by
  induction A with
  | nil => rfl
  | cons x xs ih =>
      have hx : x ≠ -1 := hneg x (List.mem_cons_self _ _)
      have ih' := ih (fun g hg => hneg g (List.mem_cons_of_mem _ hg))
      by_cases hxv : x ∈ vals
      · simp [maskList, List.count_cons, List.countP_cons, hxv, hx] at ih' ⊢
        omega
      · simp [maskList, List.count_cons, List.countP_cons, hxv, hx] at ih' ⊢
        exact ih'

/-- Filtering the holes out of the mask returns the unmasked genes. -/
theorem maskList_filter (vals : List ℤ) (A : GeneArray)
    (hneg : ∀ g ∈ A, g ≠ -1) :
    (maskList vals A).filter (fun x => x != -1) =
      A.filter (fun g => !(decide (g ∈ vals))) := by
  induction A with
  | nil => rfl
  | cons x xs ih =>
      have hx : x ≠ -1 := hneg x (List.mem_cons_self _ _)
      have ih' := ih (fun g hg => hneg g (List.mem_cons_of_mem _ hg))
      by_cases hxv : x ∈ vals
      · simp [maskList, List.filter_cons, hxv, hx] at ih' ⊢
        exact ih'
      · simp [maskList, List.filter_cons, hxv, hx] at ih' ⊢
        exact ih'

/-- On a duplicate-free array, filtering down to a duplicate-free subset
of its genes is a permutation of that subset. -/
theorem filter_mem_perm (A : GeneArray) (vals : List ℤ)
    (hndA : A.Nodup) (hndV : vals.Nodup) (hsub : vals ⊆ A) :
    (A.filter (fun g => decide (g ∈ vals))).Perm vals := by
  rw [List.perm_ext_iff_of_nodup (hndA.filter _) hndV]
  intro a
  simp only [List.mem_filter, decide_eq_true_eq]
  exact ⟨fun h => h.2, fun h => ⟨hsub h, h⟩⟩

/-- A `_mate` offspring is a permutation of its like-indexed parent:
the punching pass deletes the genes `parentOther[locus]` (all distinct
and present), and the filling pass reinserts exactly those genes. -/
theorem mateChild_perm (A B : GeneArray) (loci : List ℕ)
    (hndA : A.Nodup) (hnegA : ∀ g ∈ A, g ≠ -1)
    (hmem : ∀ l ∈ loci, B.getD l 0 ∈ A)
    (hndvals : (loci.map (fun l => B.getD l 0)).Nodup) :
    (mateChild A B loci).Perm A := by
  have hnegA' : (-1 : ℤ) ∉ A := fun hm => hnegA (-1) hm rfl
  unfold mateChild
  rw [punchHoles_eq_maskList B A loci hndA hnegA' hmem hndvals]
  have hfold : fillHoles B (loci.insertionSort (· ≤ ·))
      (maskList (loci.map (fun l => B.getD l 0)) A) =
      ((loci.insertionSort (· ≤ ·)).map (fun l => B.getD l 0)).foldl fillHole
        (maskList (loci.map (fun l => B.getD l 0)) A) := by
    unfold fillHoles
    rw [List.foldl_map]
  rw [hfold]
  have hsv : (((loci.insertionSort (· ≤ ·)).map (fun l => B.getD l 0))).Perm
      (loci.map (fun l => B.getD l 0)) :=
    (List.perm_insertionSort _ loci).map _
  have hsubvals : (loci.map (fun l => B.getD l 0)) ⊆ A := by
    intro v hv
    obtain ⟨l, hl, rfl⟩ := List.mem_map.mp hv
    exact hmem l hl
  have hnegs : (-1 : ℤ) ∉ ((loci.insertionSort (· ≤ ·)).map (fun l => B.getD l 0)) := by
    intro hm
    have : (-1 : ℤ) ∈ loci.map (fun l => B.getD l 0) := hsv.subset hm
    exact hnegA (-1) (hsubvals this) rfl
  have hcount : (maskList (loci.map (fun l => B.getD l 0)) A).count (-1) =
      ((loci.insertionSort (· ≤ ·)).map (fun l => B.getD l 0)).length := by
    rw [maskList_count _ _ hnegA, List.countP_eq_length_filter,
      (filter_mem_perm A _ hndA hndvals hsubvals).length_eq, hsv.length_eq]
  have hfill := fillFold_perm _ _ hnegs hcount
  refine hfill.trans ?_
  rw [maskList_filter _ _ hnegA]
  refine (hsv.append_right _).trans ?_
  refine (((filter_mem_perm A _ hndA hndvals hsubvals).symm).append_right _).trans ?_
  exact List.filter_append_perm _ A

end Routio

namespace Routio

/-- The identity tour `[0, 1, …, N-1]` as a gene array: the sorted gene
content of every valid chromosome. -/
def rangeChromosome (N : ℕ) : GeneArray :=
  (List.range N).map Int.ofNat

theorem rangeChromosome_nodup (N : ℕ) : (rangeChromosome N).Nodup :=
  (List.nodup_range N).map (fun _ _ h => Int.ofNat.inj h)

theorem rangeChromosome_nonneg (N : ℕ) : ∀ g ∈ rangeChromosome N, g ≠ -1 := by
  intro g hg
  obtain ⟨n, _, rfl⟩ := List.mem_map.mp hg
  intro he
  have h0 : (0 : ℤ) ≤ Int.ofNat n := Int.ofNat_nonneg n
  rw [he] at h0
  norm_num at h0

/-- C7.  For every pair of distinct parent chromosomes that are
permutations of `[0,N)` and every draw of selected loci (distinct loci
drawn from `random(1, dimension - 1)` under a fixed origin, of count
`random(1, dimension - 1)`), both offspring of `_mate` are permutations
of `[0,N)`, and position 0 is never a selected locus. -/
theorem mate_offspring_are_permutations (N : ℕ) (A B : GeneArray) (loci : List ℕ)
    (hN : 1 ≤ N)
    (hA : A.Perm (rangeChromosome N)) (hB : B.Perm (rangeChromosome N))
    (_hAB : A ≠ B) (hndl : loci.Nodup)
    (hrange : ∀ l ∈ loci, 1 ≤ l ∧ l ≤ N - 1)
    (_hcnt : 1 ≤ loci.length ∧ loci.length ≤ N - 1) :
    (mateChild A B loci).Perm (rangeChromosome N) ∧
    (mateChild B A loci).Perm (rangeChromosome N) ∧
    0 ∉ loci := by
  have hndA : A.Nodup := hA.nodup_iff.mpr (rangeChromosome_nodup N)
  have hndB : B.Nodup := hB.nodup_iff.mpr (rangeChromosome_nodup N)
  have hnegA : ∀ g ∈ A, g ≠ -1 := fun g hg => rangeChromosome_nonneg N g (hA.subset hg)
  have hnegB : ∀ g ∈ B, g ≠ -1 := fun g hg => rangeChromosome_nonneg N g (hB.subset hg)
  have hlenA : A.length = N := by
    rw [hA.length_eq]
    simp [rangeChromosome]
  have hlenB : B.length = N := by
    rw [hB.length_eq]
    simp [rangeChromosome]
  have hmemAB : ∀ g : ℤ, g ∈ B ↔ g ∈ A := fun g => (hB.trans hA.symm).mem_iff
  have hlt : ∀ l ∈ loci, l < N := by
    intro l hl
    have := (hrange l hl).2
    omega
  have hmemB : ∀ l ∈ loci, B.getD l 0 ∈ A := by
    intro l hl
    have hb : l < B.length := by rw [hlenB]; exact hlt l hl
    rw [List.getD_eq_get B 0 hb]
    exact (hmemAB _).mp (List.get_mem B l hb)
  have hmemA : ∀ l ∈ loci, A.getD l 0 ∈ B := by
    intro l hl
    have ha : l < A.length := by rw [hlenA]; exact hlt l hl
    rw [List.getD_eq_get A 0 ha]
    exact (hmemAB _).mpr (List.get_mem A l ha)
  have hndvalsB : (loci.map (fun l => B.getD l 0)).Nodup := by
    refine List.Nodup.map_on ?_ hndl
    intro l₁ h₁ l₂ h₂ he
    have hb₁ : l₁ < B.length := by rw [hlenB]; exact hlt l₁ h₁
    have hb₂ : l₂ < B.length := by rw [hlenB]; exact hlt l₂ h₂
    rw [List.getD_eq_get B 0 hb₁, List.getD_eq_get B 0 hb₂] at he
    exact congrArg Fin.val (List.nodup_iff_injective_get.mp hndB he)
  have hndvalsA : (loci.map (fun l => A.getD l 0)).Nodup := by
    refine List.Nodup.map_on ?_ hndl
    intro l₁ h₁ l₂ h₂ he
    have ha₁ : l₁ < A.length := by rw [hlenA]; exact hlt l₁ h₁
    have ha₂ : l₂ < A.length := by rw [hlenA]; exact hlt l₂ h₂
    rw [List.getD_eq_get A 0 ha₁, List.getD_eq_get A 0 ha₂] at he
    exact congrArg Fin.val (List.nodup_iff_injective_get.mp hndA he)
  refine ⟨(mateChild_perm A B loci hndA hnegA hmemB hndvalsB).trans hA,
         (mateChild_perm B A loci hndB hnegB hmemA hndvalsA).trans hB, ?_⟩
  intro h0
  have := (hrange 0 h0).1
  omega

/-- Witness for `mate_offspring_are_permutations`: parents
`[0,1,2,3]` and `[0,2,3,1]`, selected loci `{2, 1}`. -/
theorem mate_offspring_are_permutations_witness :
    (mateChild [0, 1, 2, 3] [0, 2, 3, 1] [2, 1]).Perm (rangeChromosome 4) ∧
    (mateChild [0, 2, 3, 1] [0, 1, 2, 3] [2, 1]).Perm (rangeChromosome 4) ∧
    0 ∉ [2, 1] :=
  mate_offspring_are_permutations 4 [0, 1, 2, 3] [0, 2, 3, 1] [2, 1]
    (by decide) (by decide) (by decide) (by decide) (by decide)
    (by decide) (by decide)

end Routio

namespace Routio

/-- One iteration of the nearest-neighbour scan in `GA._generateNnaChrs`
(`src/core/algorithms/ga/constants.ts`): skip diagonal routes; update the
candidate when `(isNearestNeighborUninitialized || isCurrentCostLower) &&
isNeighborUnvisited`, where `isNearestNeighborUninitialized` is the
literal `!nearestNeighborCost` — true both for `null` AND for a recorded
best cost of `0` — and `isCurrentCostLower` is
`nearestNeighborCost && cost < nearestNeighborCost`. -/
def nnaScanStep (visited : List ℕ) (s : Option ℚ × Option ℕ)
    (route : Route) : Option ℚ × Option ℕ :=
  if route.1 = route.2.1 then s
  else if (jsFalsy s.1 ∨ (¬ jsFalsy s.1 ∧ route.2.2 < s.1.getD 0)) ∧
      route.2.1 ∉ visited then
    (some route.2.2, some route.2.1)
  else s

/-- The candidate-selection loop of `GA._generateNnaChrs`: scan the cost
table rows `firstRouteIndex ≤ route < lastRouteIndex` of the current
tail (`_getCostTableBoundaries`), returning
`(nearestNeighborCost, nextGeneCandidate)`. -/
def nnaSelectNext (costTable : CostTable) (dimension tail : ℕ)
    (visited : List ℕ) : Option ℚ × Option ℕ :=
  (List.range dimension).foldl
    (fun s k => nnaScanStep visited s (costTable.getD (tail * dimension + k) (0, 0, 0)))
    (none, none)

/-- A 3-node cost table (row-major) whose row 0 contains a zero-cost
off-diagonal route: `cost[0,1] = 0`, `cost[0,2] = 5`. -/
def tableZ : CostTable :=
  [(0, 0, 0), (0, 1, 0), (0, 2, 5),
   (1, 0, 0), (1, 1, 0), (1, 2, 7),
   (2, 0, 5), (2, 1, 7), (2, 2, 0)]

end Routio

namespace Routio

/-- The scan invariant over the first `m` routes of the tail's row, for
strictly positive off-diagonal costs: either every non-diagonal node
scanned so far was visited and no candidate is set, or the state holds
the first-found minimum-cost unvisited node among the scanned ones. -/
def NnaScanInv (tail m : ℕ) (visited : List ℕ) (cost : ℕ → ℚ)
    (s : Option ℚ × Option ℕ) : Prop :=
  (s = (none, none) ∧ ∀ k < m, k ≠ tail → k ∈ visited) ∨
  (∃ j, s = (some (cost j), some j) ∧ j < m ∧ j ≠ tail ∧ j ∉ visited ∧
    (∀ k < m, k ≠ tail → k ∉ visited → cost j ≤ cost k) ∧
    (∀ k < j, k ≠ tail → k ∉ visited → cost j < cost k))

/-- Induction over the row scan: the invariant holds after every prefix
of the tail's cost-table row when off-diagonal costs are positive. -/
theorem nnaScan_invariant (costTable : CostTable) (dim tail : ℕ)
    (visited : List ℕ) (cost : ℕ → ℚ)
    (hrow : ∀ k < dim, costTable.getD (tail * dim + k) (0, 0, 0) = (tail, k, cost k))
    (hpos : ∀ k < dim, k ≠ tail → 0 < cost k) :
    ∀ m, m ≤ dim → NnaScanInv tail m visited cost
      ((List.range m).foldl
        (fun s k => nnaScanStep visited s (costTable.getD (tail * dim + k) (0, 0, 0)))
        (none, none)) := by
  intro m
  induction m with
  | zero =>
      intro _
      left
      exact ⟨rfl, fun k hk _ => absurd hk (by omega)⟩
  | succ m ih =>
      intro hm
      have hinv := ih (by omega)
      rw [List.range_succ, List.foldl_append, List.foldl_cons, List.foldl_nil,
        hrow m (by omega)]
      rcases hinv with ⟨hse, hall⟩ | ⟨j, hse, hjm, hjt, hjv, hmin, hstrict⟩
      · rw [hse]
        by_cases htm : tail = m
        · left
          refine ⟨by simp [nnaScanStep, htm], ?_⟩
          intro k hk hkt
          rcases Nat.lt_succ_iff_lt_or_eq.mp hk with h | rfl
          · exact hall k h hkt
          · exact absurd htm.symm hkt
        · by_cases hmv : m ∈ visited
          · left
            refine ⟨by simp [nnaScanStep, htm, hmv], ?_⟩
            intro k hk hkt
            rcases Nat.lt_succ_iff_lt_or_eq.mp hk with h | rfl
            · exact hall k h hkt
            · exact hmv
          · right
            refine ⟨m, by simp [nnaScanStep, htm, hmv, jsFalsy],
              by omega, fun he => htm he.symm, hmv, ?_, ?_⟩
            · intro k hk hkt hkv
              rcases Nat.lt_succ_iff_lt_or_eq.mp hk with h | rfl
              · exact absurd (hall k h hkt) hkv
              · exact le_refl _
            · intro k hk hkt hkv
              exact absurd (hall k hk hkt) hkv
      · have hjpos : 0 < cost j := hpos j (by omega) hjt
        have hjfalsy : ¬ jsFalsy (some (cost j)) := by
          simp only [jsFalsy]
          push_neg
          exact ⟨fun h => Option.noConfusion h, by
            intro h
            rw [Option.some.injEq] at h
            exact absurd h (ne_of_gt hjpos)⟩
        rw [hse]
        by_cases htm : tail = m
        · right
          refine ⟨j, by simp [nnaScanStep, htm], by omega, hjt, hjv, ?_, hstrict⟩
          intro k hk hkt hkv
          rcases Nat.lt_succ_iff_lt_or_eq.mp hk with h | rfl
          · exact hmin k h hkt hkv
          · exact absurd htm.symm hkt
        · by_cases hmv : m ∈ visited
          · right
            refine ⟨j, by simp [nnaScanStep, htm, hmv], by omega, hjt, hjv, ?_, hstrict⟩
            intro k hk hkt hkv
            rcases Nat.lt_succ_iff_lt_or_eq.mp hk with h | rfl
            · exact hmin k h hkt hkv
            · exact absurd hmv hkv
          · by_cases hcm : cost m < cost j
            · right
              refine ⟨m, by simp [nnaScanStep, htm, hmv, hjfalsy, hcm],
                by omega, fun he => htm he.symm, hmv, ?_, ?_⟩
              · intro k hk hkt hkv
                rcases Nat.lt_succ_iff_lt_or_eq.mp hk with h | rfl
                · exact le_of_lt (lt_of_lt_of_le hcm (hmin k h hkt hkv))
                · exact le_refl _
              · intro k hk hkt hkv
                exact lt_of_lt_of_le hcm (hmin k (by omega) hkt hkv)
            · right
              refine ⟨j, by simp [nnaScanStep, htm, hmv, hjfalsy, hcm],
                by omega, hjt, hjv, ?_, hstrict⟩
              intro k hk hkt hkv
              rcases Nat.lt_succ_iff_lt_or_eq.mp hk with h | rfl
              · exact hmin k h hkt hkv
              · exact le_of_not_lt hcm

end Routio

namespace Routio

/-- C8, counterexample.  Over the non-negative cost table `tableZ`
(row 0: `[0, 0, 5]`), extending the partial tour `[0]` selects node 2
(cost 5) even though the unvisited node 1 has cost 0: after recording
the zero-cost candidate, the literal guard `!nearestNeighborCost`
treats the recorded best cost `0` as "uninitialized" and lets any later
unvisited node overwrite it.  The claim's minimality therefore fails on
cost tables with a zero off-diagonal entry. -/
theorem nnaSelectNext_zero_cost_violates_min :
    nnaSelectNext tableZ 3 0 [0] = (some 5, some 2) ∧
    getRouteCost tableZ 3 0 1 = 0 ∧ (1 : ℕ) ∉ ([0] : List ℕ) ∧ ((0 : ℚ) < 5) := by
  refine ⟨by decide, by decide, by decide, by decide⟩

/-- C8, amended.  For every cost table whose off-diagonal entries in the
scanned row are strictly positive, each extension step of
`_generateNnaChrs` selects an unvisited non-tail node whose cost from
the current tail is minimal among all unvisited nodes of the tail's
row, ties broken in favour of the first such node in scan order. -/
theorem nnaSelectNext_first_min (costTable : CostTable) (dim tail : ℕ)
    (visited : List ℕ) (cost : ℕ → ℚ)
    (hrow : ∀ k < dim, costTable.getD (tail * dim + k) (0, 0, 0) = (tail, k, cost k))
    (hpos : ∀ k < dim, k ≠ tail → 0 < cost k)
    (hex : ∃ k, k < dim ∧ k ≠ tail ∧ k ∉ visited) :
    ∃ j, nnaSelectNext costTable dim tail visited = (some (cost j), some j) ∧
      j < dim ∧ j ≠ tail ∧ j ∉ visited ∧
      (∀ k < dim, k ≠ tail → k ∉ visited → cost j ≤ cost k) ∧
      (∀ k < j, k ≠ tail → k ∉ visited → cost j < cost k) := by
  have hinv := nnaScan_invariant costTable dim tail visited cost hrow hpos dim le_rfl
  rcases hinv with ⟨_, hall⟩ | ⟨j, hse, hjm, hjt, hjv, hmin, hstrict⟩
  · obtain ⟨k, hk, hkt, hkv⟩ := hex
    exact absurd (hall k hk hkt) hkv
  · exact ⟨j, hse, hjm, hjt, hjv, hmin, hstrict⟩

/-- Witness for `nnaSelectNext_first_min`: the all-positive 4-node table
`table4`, tail 0, visited `[0]`. -/
theorem nnaSelectNext_first_min_witness :
    ∃ j, nnaSelectNext table4 4 0 [0] =
        (some ((table4.getD j (0, 0, 0)).2.2), some j) ∧
      j < 4 ∧ j ≠ 0 ∧ j ∉ ([0] : List ℕ) ∧
      (∀ k < 4, k ≠ 0 → k ∉ ([0] : List ℕ) →
        (table4.getD j (0, 0, 0)).2.2 ≤ (table4.getD k (0, 0, 0)).2.2) ∧
      (∀ k < j, k ≠ 0 → k ∉ ([0] : List ℕ) →
        (table4.getD j (0, 0, 0)).2.2 < (table4.getD k (0, 0, 0)).2.2) :=
  nnaSelectNext_first_min table4 4 0 [0] (fun k => (table4.getD k (0, 0, 0)).2.2)
    (by decide) (by decide) ⟨1, by decide⟩

end Routio

namespace Routio

/-- `GA._generateRandomChrs` — `src/core/algorithms/ga/constants.ts`,
single-chromosome construction: the `Set` starts with the fixed origin
(when configured), then random draws (`random(0, dimension - 1)`, made
an explicit stream here) are appended when not already present, until
the chromosome has `dimension` genes.  Insertion order is the tour
order. -/
def buildRandomChr (dimension : ℕ) (fixedOrigin : Option ℕ)
    (draws : List ℕ) : Chromosome :=
  draws.foldl
    (fun chr d => if chr.length < dimension ∧ d ∉ chr then chr ++ [d] else chr)
    (match fixedOrigin with
     | some o => [o]
     | none => [])

/-- The `while (chromosome.size < this.configs.dimension)` extension
loop of `GA._generateNnaChrs`: append the scan's candidate
(`nextGeneCandidate!`) for the current tail until the chromosome is
full; the chromosome doubles as the visited set (they are kept in sync
by the code).  The loop runs at most `dimension` times, carried here as
fuel. -/
def nnaExtend (costTable : CostTable) (dimension : ℕ) :
    ℕ → Chromosome → Chromosome
  | 0, chr => chr
  | fuel + 1, chr =>
      if chr.length < dimension then
        nnaExtend costTable dimension fuel
          (chr ++ [(nnaSelectNext costTable dimension (chr.getLastD 0) chr).2.getD 0])
      else chr

/-- `GA._generateNnaChrs`, single-chromosome construction: place the
fixed origin (when configured), add the random unvisited start node
(the code retries the draw until it is unvisited), then extend by
nearest neighbours. -/
def buildNnaChr (costTable : CostTable) (dimension : ℕ)
    (fixedOrigin : Option ℕ) (startNode : ℕ) : Chromosome :=
  nnaExtend costTable dimension dimension
    (match fixedOrigin with
     | some o => [o, startNode]
     | none => [startNode])

/-- Appending-only folds keep the head. -/
theorem buildRandomChr_head (dimension O : ℕ) (draws : List ℕ) :
    (buildRandomChr dimension (some O) draws).head? = some O := by
  unfold buildRandomChr
  suffices h : ∀ (acc : Chromosome), acc.head? = some O →
      (draws.foldl
        (fun chr d => if chr.length < dimension ∧ d ∉ chr then chr ++ [d] else chr)
        acc).head? = some O from h [O] rfl
  induction draws with
  | nil => intro acc h; exact h
  | cons d rest ih =>
      intro acc h
      simp only [List.foldl_cons]
      apply ih
      by_cases hc : acc.length < dimension ∧ d ∉ acc
      · rw [if_pos hc]
        cases acc with
        | nil => simp at h
        | cons x xs => simpa using h
      · rw [if_neg hc]
        exact h

/-- The nearest-neighbour extension loop keeps the head. -/
theorem nnaExtend_head (costTable : CostTable) (dimension : ℕ) (O : ℕ) :
    ∀ (fuel : ℕ) (chr : Chromosome), chr.head? = some O →
      (nnaExtend costTable dimension fuel chr).head? = some O := by
  intro fuel
  induction fuel with
  | zero => intro chr h; exact h
  | succ fuel ih =>
      intro chr h
      unfold nnaExtend
      by_cases hc : chr.length < dimension
      · rw [if_pos hc]
        apply ih
        cases chr with
        | nil => simp at h
        | cons x xs => simpa using h
      · rw [if_neg hc]
        exact h

/-- An NNA-seeded chromosome with a fixed origin starts with it. -/
theorem buildNnaChr_head (costTable : CostTable) (dimension O startNode : ℕ)
    (_hstart : startNode ≠ O) :
    (buildNnaChr costTable dimension (some O) startNode).head? = some O :=
  nnaExtend_head costTable dimension O dimension [O, startNode] rfl

/-- With both loci at positions `≥ 1` and a displacement position `≥ 1`,
mutation never moves the gene at position 0. -/
theorem mutate_head_fixed (c : Chromosome) (O a b p : ℕ)
    (hnd : c.Nodup) (hhead : c.head? = some O)
    (ha : 1 ≤ a) (hp : 1 ≤ p) :
    (mutate c a b p).head? = some O := by
  obtain ⟨t, rfl⟩ : ∃ t, c = O :: t := by
    cases c with
    | nil => simp at hhead
    | cons x xs =>
        refine ⟨xs, ?_⟩
        have hx : x = O := by simpa using hhead
        rw [hx]
  obtain ⟨a', rfl⟩ : ∃ a', a = a' + 1 := ⟨a - 1, by omega⟩
  obtain ⟨p', rfl⟩ : ∃ p', p = p' + 1 := ⟨p - 1, by omega⟩
  have hOt : O ∉ t := (List.nodup_cons.mp hnd).1
  unfold mutate
  dsimp only
  rw [List.drop_succ_cons]
  have hOs : O ∉ ((t.drop a').take (b - (a' + 1) + 1)).reverse := by
    intro hm
    exact hOt (((List.take_sublist _ _).trans (List.drop_sublist _ _)).subset
      (List.mem_reverse.mp hm))
  rw [List.filter_cons]
  rw [if_pos (by simpa using hOs)]
  simp

end Routio

namespace Routio

/-- The hole-filling fold never touches a non-hole head. -/
theorem fillFold_head (vs : List ℤ) :
    ∀ (xs : GeneArray) (O : ℤ), O ≠ -1 →
      vs.foldl fillHole (O :: xs) = O :: vs.foldl fillHole xs := by
  induction vs with
  | nil => intro xs O _; rfl
  | cons v vs ih =>
      intro xs O hO
      simp only [List.foldl_cons, fillHole]
      rw [if_neg hO]
      exact ih _ _ hO

/-- With a fixed origin (both parents carry `O` at position 0) and all
selected loci `≥ 1`, a `_mate` offspring keeps `O` at position 0: the
punched genes `parentOther[locus]` are all distinct from `O`, so no hole
ever appears at position 0, and the filling pass only writes holes. -/
theorem mateChild_head_fixed (A B : GeneArray) (loci : List ℕ) (O : ℤ)
    (hndA : A.Nodup) (hndB : B.Nodup)
    (hnegA : ∀ g ∈ A, g ≠ -1)
    (hAhead : A.head? = some O) (hBhead : B.head? = some O)
    (hmem : ∀ l ∈ loci, B.getD l 0 ∈ A)
    (hndvals : (loci.map (fun l => B.getD l 0)).Nodup)
    (hloci : ∀ l ∈ loci, 1 ≤ l) (hlen : ∀ l ∈ loci, l < B.length) :
    (mateChild A B loci).head? = some O := by
  obtain ⟨At, rfl⟩ : ∃ t, A = O :: t := by
    cases A with
    | nil => simp at hAhead
    | cons x xs =>
        refine ⟨xs, ?_⟩
        have hx : x = O := by simpa using hAhead
        rw [hx]
  obtain ⟨Bt, rfl⟩ : ∃ t, B = O :: t := by
    cases B with
    | nil => simp at hBhead
    | cons x xs =>
        refine ⟨xs, ?_⟩
        have hx : x = O := by simpa using hBhead
        rw [hx]
  have hOBt : O ∉ Bt := (List.nodup_cons.mp hndB).1
  have hOne : O ≠ -1 := hnegA O (List.mem_cons_self _ _)
  have hOvals : O ∉ loci.map (fun l => (O :: Bt).getD l 0) := by
    intro hm
    obtain ⟨l, hl, he⟩ := List.mem_map.mp hm
    have h1 := hloci l hl
    obtain ⟨l', rfl⟩ : ∃ l', l = l' + 1 := ⟨l - 1, by omega⟩
    rw [List.getD_cons_succ] at he
    have hl' : l' < Bt.length := by
      have := hlen _ hl
      simp at this
      omega
    rw [List.getD_eq_get Bt 0 hl'] at he
    exact hOBt (he ▸ List.get_mem Bt l' hl')
  have hnegA' : (-1 : ℤ) ∉ O :: At := fun hm => hnegA (-1) hm rfl
  unfold mateChild
  rw [punchHoles_eq_maskList _ _ loci hndA hnegA' hmem hndvals]
  have hmask : maskList (loci.map (fun l => (O :: Bt).getD l 0)) (O :: At) =
      O :: maskList (loci.map (fun l => (O :: Bt).getD l 0)) At := by
    simp only [maskList, List.map_cons]
    rw [if_neg hOvals]
  rw [hmask]
  unfold fillHoles
  rw [← List.foldl_map (fun l => (O :: Bt).getD l 0) fillHole]
  rw [fillFold_head _ _ _ hOne]
  simp

end Routio

namespace Routio

/-- Shared consequences of the parents being permutations of `[0,N)` and
the loci lying below `N`: the punched genes exist in the other parent,
are pairwise distinct, and the loci index into the parent. -/
theorem locusVals_props (N : ℕ) (A B : GeneArray) (loci : List ℕ)
    (hA : A.Perm (rangeChromosome N)) (hB : B.Perm (rangeChromosome N))
    (hndl : loci.Nodup) (hlt : ∀ l ∈ loci, l < N) :
    (∀ l ∈ loci, B.getD l 0 ∈ A) ∧
    (loci.map (fun l => B.getD l 0)).Nodup ∧
    (∀ l ∈ loci, l < B.length) := by
  have hndB : B.Nodup := hB.nodup_iff.mpr (rangeChromosome_nodup N)
  have hlenB : B.length = N := by
    rw [hB.length_eq]
    simp [rangeChromosome]
  have hmemAB : ∀ g : ℤ, g ∈ B ↔ g ∈ A := fun g => (hB.trans hA.symm).mem_iff
  have hlenl : ∀ l ∈ loci, l < B.length := by
    intro l hl
    rw [hlenB]
    exact hlt l hl
  refine ⟨?_, ?_, hlenl⟩
  · intro l hl
    rw [List.getD_eq_get B 0 (hlenl l hl)]
    exact (hmemAB _).mp (List.get_mem B l (hlenl l hl))
  · refine List.Nodup.map_on ?_ hndl
    intro l₁ h₁ l₂ h₂ he
    rw [List.getD_eq_get B 0 (hlenl l₁ h₁), List.getD_eq_get B 0 (hlenl l₂ h₂)] at he
    exact congrArg Fin.val (List.nodup_iff_injective_get.mp hndB he)

/-- C5.  When `fixedOriginIndex = O` is configured, every chromosome
produced by the components has `O` at position 0: nearest-neighbour
seeding and random seeding insert `O` first (a `Set` preserves insertion
order), mutation draws both loci and the displacement position from
`[1, …]`, and crossover of two parents with `O` at position 0 only punches
and fills at positions holding genes distinct from `O`. -/
theorem fixed_origin_preserved (costTable : CostTable)
    (dimension O startNode : ℕ) (draws : List ℕ)
    (c : Chromosome) (a b p : ℕ) (N : ℕ) (A B : GeneArray) (loci : List ℕ)
    (hstart : startNode ≠ O)
    (hcnd : c.Nodup) (hchead : c.head? = some O)
    (ha : 1 ≤ a) (_hab : a < b) (hp : 1 ≤ p)
    (_hN : 1 ≤ N)
    (hA : A.Perm (rangeChromosome N)) (hB : B.Perm (rangeChromosome N))
    (hAhead : A.head? = some (Int.ofNat O)) (hBhead : B.head? = some (Int.ofNat O))
    (hndl : loci.Nodup) (hrange : ∀ l ∈ loci, 1 ≤ l ∧ l ≤ N - 1) :
    (buildNnaChr costTable dimension (some O) startNode).head? = some O ∧
    (buildRandomChr dimension (some O) draws).head? = some O ∧
    (mutate c a b p).head? = some O ∧
    (mateChild A B loci).head? = some (Int.ofNat O) ∧
    (mateChild B A loci).head? = some (Int.ofNat O) := by
  have hlt : ∀ l ∈ loci, l < N := by
    intro l hl
    have h1 := (hrange l hl).1
    have h2 := (hrange l hl).2
    omega
  have hloci1 : ∀ l ∈ loci, 1 ≤ l := fun l hl => (hrange l hl).1
  have hndA : A.Nodup := hA.nodup_iff.mpr (rangeChromosome_nodup N)
  have hndB : B.Nodup := hB.nodup_iff.mpr (rangeChromosome_nodup N)
  have hnegA : ∀ g ∈ A, g ≠ -1 := fun g hg => rangeChromosome_nonneg N g (hA.subset hg)
  have hnegB : ∀ g ∈ B, g ≠ -1 := fun g hg => rangeChromosome_nonneg N g (hB.subset hg)
  obtain ⟨hmemB, hndvalsB, hlenB⟩ := locusVals_props N A B loci hA hB hndl hlt
  obtain ⟨hmemA, hndvalsA, hlenA⟩ := locusVals_props N B A loci hB hA hndl hlt
  exact ⟨buildNnaChr_head costTable dimension O startNode hstart,
    buildRandomChr_head dimension O draws,
    mutate_head_fixed c O a b p hcnd hchead ha hp,
    mateChild_head_fixed A B loci (Int.ofNat O) hndA hndB hnegA hAhead hBhead
      hmemB hndvalsB hloci1 hlenB,
    mateChild_head_fixed B A loci (Int.ofNat O) hndB hndA hnegB hBhead hAhead
      hmemA hndvalsA hloci1 hlenA⟩

/-- Witness for `fixed_origin_preserved`: origin 0, 4-node problem. -/
theorem fixed_origin_preserved_witness :
    (buildNnaChr table4 4 (some 0) 1).head? = some 0 ∧
    (buildRandomChr 4 (some 0) [2, 1, 3]).head? = some 0 ∧
    (mutate [0, 1, 2, 3] 1 2 1).head? = some 0 ∧
    (mateChild [0, 1, 2, 3] [0, 2, 3, 1] [2, 1]).head? = some (Int.ofNat 0) ∧
    (mateChild [0, 2, 3, 1] [0, 1, 2, 3] [2, 1]).head? = some (Int.ofNat 0) :=
  fixed_origin_preserved table4 4 0 1 [2, 1, 3] [0, 1, 2, 3] 1 2 1 4
    [0, 1, 2, 3] [0, 2, 3, 1] [2, 1]
    (by decide) (by decide) (by decide) (by decide) (by decide) (by decide)
    (by decide) (by decide) (by decide) (by decide) (by decide) (by decide)
    (by decide)

end Routio

namespace Routio

/-- The comparator passed to `costTable.sort` in `calculateCostTable`
(`src/services/brokerServices.ts`):
`(a, b) => a[0] === b[0] ? a[1] - b[1] : a[0] - b[0]`, i.e. ascending
lexicographically by `(origin, destination)`. -/
def routeLe (x y : Route) : Prop :=
  x.1 < y.1 ∨ (x.1 = y.1 ∧ x.2.1 ≤ y.2.1)

/-- Strict lexicographic order on the `(origin, destination)` keys. -/
def routeLt (x y : Route) : Prop :=
  x.1 < y.1 ∨ (x.1 = y.1 ∧ x.2.1 < y.2.1)

instance : DecidableRel routeLe := fun x y => by unfold routeLe; infer_instance

instance : DecidableRel routeLt := fun x y => by unfold routeLt; infer_instance

instance : IsTotal Route routeLe :=
  ⟨fun x y => by unfold routeLe; omega⟩

instance : IsTrans Route routeLe :=
  ⟨fun x y z hxy hyz => by unfold routeLe at *; omega⟩

instance : IsAntisymm Route routeLt :=
  ⟨fun x y hxy hyx => by unfold routeLt at *; omega⟩

/-- Strict lexicographic order on index pairs. -/
def pairLt (p q : ℕ × ℕ) : Prop :=
  p.1 < q.1 ∨ (p.1 = q.1 ∧ p.2 < q.2)

/-- The row-major enumeration of all index pairs is strictly
lexicographically sorted. -/
theorem pairwise_product_lex (l₁ l₂ : List ℕ)
    (h₁ : l₁.Pairwise (· < ·)) (h₂ : l₂.Pairwise (· < ·)) :
    (l₁ ×ˢ l₂).Pairwise pairLt := by
  induction l₁ with
  | nil => simp
  | cons x xs ih =>
      rw [List.product_cons, List.pairwise_append]
      obtain ⟨hx, hxs⟩ := List.pairwise_cons.mp h₁
      refine ⟨?_, ih hxs, ?_⟩
      · rw [List.pairwise_map]
        exact h₂.imp (fun hab => Or.inr ⟨rfl, hab⟩)
      · intro a ha q hq
        obtain ⟨b, _, rfl⟩ := List.mem_map.mp ha
        have hq1 : q.1 ∈ xs := by
          rcases q with ⟨qa, qb⟩
          exact (List.mem_product.mp hq).1
        exact Or.inl (hx q.1 hq1)

/-- Indexing the row-major pair enumeration: entry `i * |l₂| + j` is the
pair `(l₁[i], l₂[j])`. -/
theorem product_getElem? (l₁ l₂ : List ℕ) :
    ∀ (i j : ℕ), i < l₁.length → j < l₂.length →
      (l₁ ×ˢ l₂)[i * l₂.length + j]? = some (l₁.getD i 0, l₂.getD j 0) := by
  induction l₁ with
  | nil => intro i j hi _; simp at hi
  | cons x xs ih =>
      intro i j hi hj
      rw [List.product_cons]
      cases i with
      | zero =>
          rw [Nat.zero_mul, Nat.zero_add]
          rw [List.getElem?_append_left (by rw [List.length_map]; exact hj)]
          rw [List.getElem?_map]
          rw [List.getElem?_eq_getElem hj]
          rw [List.getD_eq_getElem l₂ 0 hj]
          rfl
      | succ i' =>
          have hidx : (i' + 1) * l₂.length + j =
              (List.map (fun b => (x, b)) l₂).length + (i' * l₂.length + j) := by
            rw [List.length_map]
            ring
          rw [hidx, List.getElem?_append_right (by omega)]
          rw [Nat.add_sub_cancel_left]
          rw [ih i' j (by simpa using hi) hj]
          rfl

end Routio

namespace Routio

/-- The off-diagonal index pairs, in the double-loop order of
`calculateCostTable`. -/
def offDiagPairs (N : ℕ) : List (ℕ × ℕ) :=
  ((List.range N) ×ˢ (List.range N)).filter (fun p => p.1 ≠ p.2)

/-- The diagonal `[originIndex, destIndex, 0]` entries, pushed
synchronously in loop order by `calculateCostTable`. -/
def diagEntries (N : ℕ) : CostTable :=
  (List.range N).map (fun i => (i, i, (0 : ℚ)))

/-- `calculateCostTable` (success path) —
`src/services/brokerServices.ts`.  Diagonal entries are pushed
synchronously during the double loop; every off-diagonal pair's fetched
duration is pushed by its `.then` callback as the responses settle, i.e.
in an arbitrary completion order `arrivals` (a permutation of the
off-diagonal pairs); finally the table is sorted with the
`(origin, destination)` comparator.  The array sort is modelled by
`insertionSort routeLe`, with which every comparison sort agrees here
because the keys are pairwise distinct. -/
def calculateCostTable (N : ℕ) (dur : ℕ → ℕ → ℚ)
    (arrivals : List (ℕ × ℕ)) : CostTable :=
  List.insertionSort routeLe
    (diagEntries N ++ arrivals.map (fun ij => (ij.1, ij.2, dur ij.1 ij.2)))

/-- The canonical row-major table: entry `i * N + j` is
`(i, j, if i = j then 0 else dur i j)`. -/
def canonicalCostTable (N : ℕ) (dur : ℕ → ℕ → ℚ) : CostTable :=
  ((List.range N) ×ˢ (List.range N)).map
    (fun ij => (ij.1, ij.2, if ij.1 = ij.2 then 0 else dur ij.1 ij.2))

theorem canonicalCostTable_sorted (N : ℕ) (dur : ℕ → ℕ → ℚ) :
    (canonicalCostTable N dur).Pairwise routeLt := by
  unfold canonicalCostTable
  rw [List.pairwise_map]
  exact (pairwise_product_lex _ _ (List.pairwise_lt_range N)
    (List.pairwise_lt_range N)).imp (fun h => h)

theorem canonicalCostTable_nodup (N : ℕ) (dur : ℕ → ℕ → ℚ) :
    (canonicalCostTable N dur).Nodup := by
  unfold canonicalCostTable
  refine List.Nodup.map ?_
    (List.Nodup.product (List.nodup_range N) (List.nodup_range N))
  intro p q h
  have h1 : p.1 = q.1 := congrArg (fun r : Route => r.1) h
  have h2 : p.2 = q.2 := congrArg (fun r : Route => r.2.1) h
  exact Prod.ext h1 h2

theorem offDiagPairs_nodup (N : ℕ) : (offDiagPairs N).Nodup :=
  (List.Nodup.product (List.nodup_range N) (List.nodup_range N)).filter _

/-- The table contents before the sort (diagonal pushes, then fetched
entries in completion order) hold exactly the canonical entries. -/
theorem preTable_perm_canonical (N : ℕ) (dur : ℕ → ℕ → ℚ)
    (arrivals : List (ℕ × ℕ)) (harr : arrivals.Perm (offDiagPairs N)) :
    (diagEntries N ++ arrivals.map (fun ij => (ij.1, ij.2, dur ij.1 ij.2))).Perm
      (canonicalCostTable N dur) := by
  have hdiag_nodup : (diagEntries N).Nodup := by
    refine List.Nodup.map ?_ (List.nodup_range N)
    intro i j h
    exact congrArg (fun r : Route => r.1) h
  have harn : arrivals.Nodup := harr.nodup_iff.mpr (offDiagPairs_nodup N)
  have hmap_nodup : (arrivals.map (fun ij => ((ij.1 : ℕ), ij.2, dur ij.1 ij.2))).Nodup := by
    refine List.Nodup.map ?_ harn
    intro p q h
    have h1 : p.1 = q.1 := congrArg (fun r : Route => r.1) h
    have h2 : p.2 = q.2 := congrArg (fun r : Route => r.2.1) h
    exact Prod.ext h1 h2
  have hnd_pre : (diagEntries N ++
      arrivals.map (fun ij => (ij.1, ij.2, dur ij.1 ij.2))).Nodup := by
    rw [List.nodup_append]
    refine ⟨hdiag_nodup, hmap_nodup, ?_⟩
    intro a ha hb
    obtain ⟨i, _, rfl⟩ := List.mem_map.mp ha
    obtain ⟨⟨x, y⟩, hxy, he⟩ := List.mem_map.mp hb
    have hxo : (x, y) ∈ offDiagPairs N := harr.subset hxy
    have hne : x ≠ y := by
      have := (List.mem_filter.mp hxo).2
      simpa using this
    have hx : x = i := congrArg Prod.fst he
    have hy : y = i := congrArg (fun r : Route => r.2.1) he
    exact hne (hx.trans hy.symm)
  rw [List.perm_ext_iff_of_nodup hnd_pre (canonicalCostTable_nodup N dur)]
  intro x
  rw [List.mem_append]
  constructor
  · rintro (hd | hm)
    · obtain ⟨i, hi, rfl⟩ := List.mem_map.mp hd
      refine List.mem_map.mpr ⟨(i, i), List.mem_product.mpr ⟨hi, hi⟩, by simp⟩
    · obtain ⟨⟨a, b⟩, hab, rfl⟩ := List.mem_map.mp hm
      have hxo : (a, b) ∈ offDiagPairs N := harr.subset hab
      have hmem := (List.mem_filter.mp hxo).1
      have hne : a ≠ b := by
        have := (List.mem_filter.mp hxo).2
        simpa using this
      exact List.mem_map.mpr ⟨(a, b), hmem, by simp [hne]⟩
  · intro hc
    obtain ⟨⟨a, b⟩, hab, rfl⟩ := List.mem_map.mp hc
    obtain ⟨ha, hb⟩ := List.mem_product.mp hab
    by_cases he : a = b
    · subst he
      exact Or.inl (List.mem_map.mpr ⟨a, ha, by simp⟩)
    · refine Or.inr (List.mem_map.mpr ⟨(a, b), ?_, by simp [he]⟩)
      exact harr.mem_iff.mpr (List.mem_filter.mpr ⟨hab, by simpa using he⟩)

end Routio

namespace Routio

/-- C9.  For every list of `N` coordinates, when every pairwise fetch
succeeds, the table returned by `calculateCostTable` — whatever order
the concurrent responses arrive in — equals the canonical row-major
table: it has exactly `N²` entries, entry `(i,i)` has cost 0, the
off-diagonal entry `(i,j)` carries the provider's duration from `i` to
`j`, and the entries are sorted lexicographically by
`(origin, destination)`. -/
theorem calculateCostTable_spec (N : ℕ) (dur : ℕ → ℕ → ℚ)
    (arrivals : List (ℕ × ℕ)) (harr : arrivals.Perm (offDiagPairs N)) :
    calculateCostTable N dur arrivals = canonicalCostTable N dur ∧
    (calculateCostTable N dur arrivals).length = N * N ∧
    (∀ i < N, ∀ j < N,
      (calculateCostTable N dur arrivals).getD (i * N + j) (0, 0, 0) =
        (i, j, if i = j then 0 else dur i j)) ∧
    (calculateCostTable N dur arrivals).Pairwise routeLe := by
  have hperm : (calculateCostTable N dur arrivals).Perm (canonicalCostTable N dur) :=
    (List.perm_insertionSort routeLe _).trans
      (preTable_perm_canonical N dur arrivals harr)
  have hsorted_le : (calculateCostTable N dur arrivals).Pairwise routeLe :=
    List.sorted_insertionSort routeLe _
  have hkeys_c : ((canonicalCostTable N dur).map (fun r => (r.1, r.2.1))).Nodup := by
    unfold canonicalCostTable
    rw [List.map_map]
    have hc : ((fun r : Route => (r.1, r.2.1)) ∘
        (fun ij : ℕ × ℕ => ((ij.1 : ℕ), ij.2, if ij.1 = ij.2 then 0 else dur ij.1 ij.2))) =
        (fun ij : ℕ × ℕ => (ij.1, ij.2)) := rfl
    rw [hc]
    have hid : (fun ij : ℕ × ℕ => (ij.1, ij.2)) = id := by
      funext ij
      rfl
    rw [hid, List.map_id]
    exact List.Nodup.product (List.nodup_range N) (List.nodup_range N)
  have hkeys_r : ((calculateCostTable N dur arrivals).map (fun r => (r.1, r.2.1))).Nodup :=
    ((hperm.map _).nodup_iff).mpr hkeys_c
  have hpw_ne : (calculateCostTable N dur arrivals).Pairwise
      (fun a b => (a.1, a.2.1) ≠ ((b.1 : ℕ), b.2.1)) := List.pairwise_map.mp hkeys_r
  have hsorted_lt : (calculateCostTable N dur arrivals).Pairwise routeLt := by
    refine (hsorted_le.and hpw_ne).imp ?_
    rintro a b ⟨hle, hne⟩
    rcases hle with h | ⟨he, hle2⟩
    · exact Or.inl h
    · refine Or.inr ⟨he, ?_⟩
      rcases Nat.lt_or_ge a.2.1 b.2.1 with h2 | h2
      · exact h2
      · have he2 : a.2.1 = b.2.1 := by omega
        exact absurd (by rw [he, he2]) hne
  have heq : calculateCostTable N dur arrivals = canonicalCostTable N dur :=
    List.eq_of_perm_of_sorted hperm hsorted_lt (canonicalCostTable_sorted N dur)
  refine ⟨heq, ?_, ?_, hsorted_le⟩
  · rw [heq]
    unfold canonicalCostTable
    rw [List.length_map, List.length_product, List.length_range]
  · intro i hi j hj
    rw [heq, List.getD_eq_getElem?_getD]
    unfold canonicalCostTable
    rw [List.getElem?_map]
    have hp := product_getElem? (List.range N) (List.range N) i j
      (by simpa using hi) (by simpa using hj)
    rw [List.length_range] at hp
    rw [hp]
    have hri : (List.range N).getD i 0 = i := by
      rw [List.getD_eq_getElem?_getD, List.getElem?_range hi]
      rfl
    have hrj : (List.range N).getD j 0 = j := by
      rw [List.getD_eq_getElem?_getD, List.getElem?_range hj]
      rfl
    rw [hri, hrj]
    rfl

/-- Witness for `calculateCostTable_spec`: two coordinates, both
off-diagonal responses arriving in reverse order. -/
theorem calculateCostTable_spec_witness :
    calculateCostTable 2 (fun i j => (7 : ℚ) * i + j) [(1, 0), (0, 1)] =
      canonicalCostTable 2 (fun i j => (7 : ℚ) * i + j) ∧
    (calculateCostTable 2 (fun i j => (7 : ℚ) * i + j) [(1, 0), (0, 1)]).length = 2 * 2 ∧
    (∀ i < 2, ∀ j < 2,
      (calculateCostTable 2 (fun i j => (7 : ℚ) * i + j) [(1, 0), (0, 1)]).getD
          (i * 2 + j) (0, 0, 0) =
        (i, j, if i = j then 0 else (7 : ℚ) * i + j)) ∧
    (calculateCostTable 2 (fun i j => (7 : ℚ) * i + j) [(1, 0), (0, 1)]).Pairwise routeLe :=
  calculateCostTable_spec 2 (fun i j => (7 : ℚ) * i + j) [(1, 0), (0, 1)] (by decide)

end Routio

namespace Routio

/-- `brokerConstants.ORG_DEST_VALID_ERR` —
`src/constants/brokerConstants.ts`. -/
def ORG_DEST_VALID_ERR : String := "Origin or destination are invalid"

/-- `brokerConstants.NESHAN_API_FAILED`. -/
def NESHAN_API_FAILED : String := "Fetching routing data from Neshan failed"

/-- `brokerConstants.NESHAN_API_KEY_NOT_FOUND`. -/
def NESHAN_API_KEY_NOT_FOUND : String := "Neshan API key is missing or invalid"

/-- An HTTP response from the routing provider: the `response.ok` flag
(2xx status) and, when ok, the first leg's distance and duration
values. -/
structure ProviderResponse where
  ok : Bool
  distance : ℚ
  duration : ℚ
deriving Repr, DecidableEq

/-- `RouteData` — `src/types` (the `fetchedAt` timestamp is not
modelled). -/
structure RouteData where
  origin : String
  destination : String
  distance : ℚ
  duration : ℚ
deriving Repr, DecidableEq

/-- `getNeshanRoute` — `src/services/brokerServices.ts`, with the
`validator` package's `isLatLong` predicate and the HTTP `fetch` as
explicit parameters (they live outside the repository).  Coordinate
validation precedes the fetch; a non-2xx response
(`!response.ok`) fails with `NESHAN_API_FAILED`; otherwise the leg's
distance and duration are returned. -/
def getNeshanRoute (isLatLong : String → Bool)
    (fetch : String → String → ProviderResponse)
    (origin dest : String) : Except String RouteData :=
  if !(isLatLong origin) || !(isLatLong dest) then
    Except.error ORG_DEST_VALID_ERR
  else if !(fetch origin dest).ok then
    Except.error NESHAN_API_FAILED
  else
    Except.ok ⟨origin, dest, (fetch origin dest).distance, (fetch origin dest).duration⟩

/-- `calculateCostTable` with failure propagation —
`src/services/brokerServices.ts`.  The empty API key fails up front
(`if (!apiKey) raise(bc.NESHAN_API_KEY_NOT_FOUND)`).  Each off-diagonal
fetch's `.catch` re-raises with a message prefixed by
`NESHAN_API_FAILED`, and `Promise.all` rejects as soon as any of the
collected promises rejects, so the function throws without returning a
table; which of several simultaneous rejections is observed first is
immaterial to the caller and is modelled as the first failing pair in
loop order.  On all-success the sorted table of `calculateCostTable` is
returned, the fetched durations as off-diagonal costs. -/
def calculateCostTableE (isLatLong : String → Bool)
    (fetch : String → String → ProviderResponse)
    (apiKey : String) (coords : List String)
    (arrivals : List (ℕ × ℕ)) : Except String CostTable :=
  if apiKey = "" then Except.error NESHAN_API_KEY_NOT_FOUND
  else
    match (offDiagPairs coords.length).findSome?
        (fun ij =>
          match getNeshanRoute isLatLong fetch
              (coords.getD ij.1 "") (coords.getD ij.2 "") with
          | Except.error e => some e
          | Except.ok _ => none) with
    | some e => Except.error (NESHAN_API_FAILED ++ ", " ++ e)
    | none =>
        Except.ok (calculateCostTable coords.length
          (fun i j =>
            match getNeshanRoute isLatLong fetch
                (coords.getD i "") (coords.getD j "") with
            | Except.ok rd => rd.duration
            | Except.error _ => 0)
          arrivals)

/-- C10.  `calculateCostTable` fails without returning any table
whenever at least one off-diagonal fetch fails, and fails up front with
the API-key-missing error when the key is empty; `getNeshanRoute` fails
with the invalid origin-or-destination error whenever either coordinate
string is not valid "latitude,longitude" syntax, and with the
fetching-failed error on every non-2xx response. -/
theorem broker_error_handling (isLatLong : String → Bool)
    (fetch : String → String → ProviderResponse) (apiKey : String)
    (coords : List String) (arrivals : List (ℕ × ℕ)) (origin dest : String) :
    ((¬ isLatLong origin ∨ ¬ isLatLong dest) →
      getNeshanRoute isLatLong fetch origin dest = Except.error ORG_DEST_VALID_ERR) ∧
    (isLatLong origin → isLatLong dest → (fetch origin dest).ok = false →
      getNeshanRoute isLatLong fetch origin dest = Except.error NESHAN_API_FAILED) ∧
    (apiKey = "" →
      calculateCostTableE isLatLong fetch apiKey coords arrivals =
        Except.error NESHAN_API_KEY_NOT_FOUND) ∧
    ((∃ ij ∈ offDiagPairs coords.length, ∃ e,
        getNeshanRoute isLatLong fetch
          (coords.getD ij.1 "") (coords.getD ij.2 "") = Except.error e) →
      ∃ e, calculateCostTableE isLatLong fetch apiKey coords arrivals =
        Except.error e) := by
  refine ⟨?_, ?_, ?_, ?_⟩
  · intro h
    unfold getNeshanRoute
    rw [if_pos]
    rcases h with h | h <;> simp [h]
  · intro ho hd hok
    unfold getNeshanRoute
    rw [if_neg (by simp [ho, hd]), if_pos (by simp [hok])]
  · intro hk
    unfold calculateCostTableE
    rw [if_pos hk]
  · intro hfail
    unfold calculateCostTableE
    by_cases hk : apiKey = ""
    · rw [if_pos hk]
      exact ⟨NESHAN_API_KEY_NOT_FOUND, rfl⟩
    · rw [if_neg hk]
      obtain ⟨ij, hij, e, he⟩ := hfail
      cases hfs : (offDiagPairs coords.length).findSome?
          (fun ij =>
            match getNeshanRoute isLatLong fetch
                (coords.getD ij.1 "") (coords.getD ij.2 "") with
            | Except.error e => some e
            | Except.ok _ => none) with
      | some e' => exact ⟨NESHAN_API_FAILED ++ ", " ++ e', rfl⟩
      | none =>
          have hall := List.findSome?_eq_none_iff.mp hfs ij hij
          rw [he] at hall
          simp at hall

end Routio

namespace Routio

/-- A two-coordinate world for exercising the broker error paths:
exactly the strings `"9.9,9.9"` and `"8.8,8.8"` are valid
"latitude,longitude" syntax. -/
def isLatLongM : String → Bool := fun s => s == "9.9,9.9" || s == "8.8,8.8"

/-- A provider whose every response is 2xx. -/
def fetchOk : String → String → ProviderResponse := fun _ _ => ⟨true, 5, 9⟩

/-- A provider whose every response is non-2xx. -/
def fetchBad : String → String → ProviderResponse := fun _ _ => ⟨false, 0, 0⟩

/-- The two valid coordinates. -/
def coordsM : List String := ["9.9,9.9", "8.8,8.8"]

/-- Witness for `broker_error_handling`, exercising each error path at a
concrete input: an invalid origin, a non-2xx response, an empty API key,
and a failing off-diagonal fetch. -/
theorem broker_error_handling_witness :
    getNeshanRoute isLatLongM fetchOk "bad" "9.9,9.9" =
      Except.error ORG_DEST_VALID_ERR ∧
    getNeshanRoute isLatLongM fetchBad "9.9,9.9" "8.8,8.8" =
      Except.error NESHAN_API_FAILED ∧
    calculateCostTableE isLatLongM fetchOk "" coordsM [(0, 1), (1, 0)] =
      Except.error NESHAN_API_KEY_NOT_FOUND ∧
    (∃ e, calculateCostTableE isLatLongM fetchBad "key" coordsM [(0, 1), (1, 0)] =
      Except.error e) :=
  ⟨(broker_error_handling isLatLongM fetchOk "k" coordsM [(0, 1), (1, 0)]
      "bad" "9.9,9.9").1 (Or.inl (by decide)),
   (broker_error_handling isLatLongM fetchBad "k" coordsM [(0, 1), (1, 0)]
      "9.9,9.9" "8.8,8.8").2.1 (by decide) (by decide) (by decide),
   (broker_error_handling isLatLongM fetchOk "" coordsM [(0, 1), (1, 0)]
      "x" "y").2.2.1 rfl,
   (broker_error_handling isLatLongM fetchBad "key" coordsM [(0, 1), (1, 0)]
      "x" "y").2.2.2 ⟨(0, 1), by decide, NESHAN_API_FAILED, by rfl⟩⟩

end Routio
